import Mathlib

/-!
Verification of the monophonic vocal transcription core of music-2-notes.

The Python floats of the source are modelled as exact rationals (ℚ); the
transcendental functions (`log2`, `log10`, `sqrt`, Pearson correlation) are
modelled over ℝ.  Functions that can raise (`hz_to_midi`, `midi_to_hz`)
return `Option`.  `round(x, n)` is modelled as rounding `x·10^n` to the
nearest integer; Python `int(x)` is truncation toward zero.
-/

/-- Python `round(q, d)` on exact rationals: round to `d` decimal places. -/
def pyRound (d : ℕ) (q : ℚ) : ℚ := (round (q * 10 ^ d) : ℤ) / 10 ^ d

/-- Python `round(x, 4)` on a real number (used for the normalized key
correlation, a float in the source). -/
noncomputable def pyRound4R (x : ℝ) : ℝ := ((round (x * 10000) : ℤ) : ℝ) / 10000

/-- Python `int(x)`: truncation toward zero. -/
def pyInt (q : ℚ) : ℤ := if q < 0 then ⌈q⌉ else ⌊q⌋

/-- Python `int(x)` on a real number (used where the source truncates a
float expression). -/
noncomputable def pyIntR (x : ℝ) : ℤ := if x < 0 then ⌈x⌉ else ⌊x⌋

/-- A rational that is exactly representable with 4 decimal places, as every
timestamp and duration produced by the segmenter is. -/
def isGrid4 (q : ℚ) : Prop := ∃ z : ℤ, q = z / 10000

theorem pyRound_of_isGrid4 {q : ℚ} (h : isGrid4 q) : pyRound 4 q = q := by
  obtain ⟨z, rfl⟩ := h
  unfold pyRound
  have hz : (z : ℚ) / 10000 * 10 ^ 4 = (z : ℚ) := by
    rw [div_mul_eq_mul_div]
    norm_num
  rw [hz, round_intCast]
  norm_num

theorem pyRound_isGrid4 (q : ℚ) : isGrid4 (pyRound 4 q) :=
  ⟨round (q * 10 ^ 4), by unfold pyRound; norm_num⟩

theorem isGrid4_add {a b : ℚ} (ha : isGrid4 a) (hb : isGrid4 b) : isGrid4 (a + b) := by
  obtain ⟨x, rfl⟩ := ha; obtain ⟨y, rfl⟩ := hb
  exact ⟨x + y, by push_cast; ring⟩

theorem isGrid4_sub {a b : ℚ} (ha : isGrid4 a) (hb : isGrid4 b) : isGrid4 (a - b) := by
  obtain ⟨x, rfl⟩ := ha; obtain ⟨y, rfl⟩ := hb
  exact ⟨x - y, by push_cast; ring⟩

theorem isGrid4_max {a b : ℚ} (ha : isGrid4 a) (hb : isGrid4 b) : isGrid4 (max a b) := by
  rcases max_cases a b with ⟨h, _⟩ | ⟨h, _⟩ <;> rw [h] <;> assumption

/-! ### src/src/utils/converters.py -/

/-- The clamped MIDI number `max(0, min(127, round(69 + 12·log2(f/440))))`
computed by `hz_to_midi` on a positive frequency. -/
noncomputable def hzToMidiNum (f : ℝ) : ℤ :=
  max 0 (min 127 (round (69 + 12 * Real.logb 2 (f / 440))))

/-- `hz_to_midi` raises `ValueError` on `frequency <= 0`, modelled as `none`. -/
noncomputable def hz_to_midi (f : ℝ) : Option ℤ :=
  if f ≤ 0 then none else some (hzToMidiNum f)

/-- The frequency `440 · 2^((m − 69)/12)` returned by `midi_to_hz` in range. -/
noncomputable def midiToHzVal (m : ℤ) : ℝ :=
  440 * (2 : ℝ) ^ (((m : ℝ) - 69) / 12)

/-- `midi_to_hz` raises `ValueError` outside `[0, 127]`, modelled as `none`. -/
noncomputable def midi_to_hz (m : ℤ) : Option ℝ :=
  if 0 ≤ m ∧ m ≤ 127 then some (midiToHzVal m) else none

theorem midiToHzVal_pos (m : ℤ) : 0 < midiToHzVal m := by
  unfold midiToHzVal
  positivity

/-- C9: for every integer MIDI number m in [0, 127],
`hz_to_midi(midi_to_hz(m)) == m`: the exponential `440·2^((m−69)/12)` is
positive, its base-2 logarithm recovers `(m−69)/12` exactly, and rounding
and clamping the integer `m` are the identity. -/
theorem hz_to_midi_midi_to_hz (m : ℤ) (h0 : 0 ≤ m) (h127 : m ≤ 127) :
    (midi_to_hz m).bind hz_to_midi = some m := by
  have hval : midi_to_hz m = some (midiToHzVal m) := by
    unfold midi_to_hz
    exact if_pos ⟨h0, h127⟩
  have hpos : 0 < midiToHzVal m := midiToHzVal_pos m
  have hlog : Real.logb 2 (midiToHzVal m / 440) = ((m : ℝ) - 69) / 12 := by
    unfold midiToHzVal
    rw [mul_comm, mul_div_assoc, div_self (by norm_num : (440 : ℝ) ≠ 0), mul_one]
    exact Real.logb_rpow (by norm_num) (by norm_num)
  have harg : (69 : ℝ) + 12 * Real.logb 2 (midiToHzVal m / 440) = (m : ℝ) := by
    rw [hlog]; ring
  rw [hval]
  show hz_to_midi (midiToHzVal m) = some m
  unfold hz_to_midi
  rw [if_neg (not_le.mpr hpos)]
  unfold hzToMidiNum
  rw [harg, round_intCast]
  congr 1
  omega

/-- Witness for C9 at m = 69 (A4, 440 Hz). -/
theorem hz_to_midi_midi_to_hz_witness :
    (midi_to_hz 69).bind hz_to_midi = some 69 :=
  hz_to_midi_midi_to_hz 69 (by norm_num) (by norm_num)

/-- C10: `hz_to_midi` raises (returns `none`) exactly when its frequency
argument is ≤ 0, and under the segmenter validity precondition
`frequency > 80` (the `min_freq` gate) the error branch is unreachable. -/
theorem hz_to_midi_error_iff (f : ℝ) :
    (hz_to_midi f = none ↔ f ≤ 0) ∧ (80 < f → (hz_to_midi f).isSome = true) := by
  constructor
  · unfold hz_to_midi
    by_cases h : f ≤ 0
    · simp [h]
    · simp [h]
  · intro hf
    unfold hz_to_midi
    rw [if_neg (by linarith)]
    rfl

/-- Witness for C10: frequency 0 (an unvoiced frame) raises; frequency 100
(a passing frame, > 80 Hz) does not. -/
theorem hz_to_midi_error_iff_witness :
    hz_to_midi 0 = none ∧ (hz_to_midi 100).isSome = true :=
  ⟨(hz_to_midi_error_iff 0).1.mpr (by norm_num),
   (hz_to_midi_error_iff 100).2 (by norm_num)⟩

/-! ### src/src/audio/models.py -/

/-- `_energy_to_velocity` from models.py: maps RMS energy to MIDI velocity on
a dB scale with `min_vel = 30`, `max_vel = 120`, `db_min = -46`, `db_max = -6`.
The final `int(...)` of the source truncates (the value is ≥ 30, so toward
zero = floor). -/
noncomputable def _energy_to_velocity (energy : ℚ) : ℤ :=
  if energy ≤ 0 then 30
  else
    let db : ℝ := 20 * Real.logb 10 (max (energy : ℝ) (1 / 10 ^ 10))
    let normalized : ℝ := max 0 (min 1 ((db - (-46)) / ((-6) - (-46))))
    max 0 (min 127 ⌊(30 : ℝ) + normalized * (120 - 30)⌋)

/-- The velocity computed by `Note.__post_init__` when no explicit velocity is
given: `_energy_to_velocity(energy)` when energy is present and > 0, otherwise
`int(confidence * 77 + 50)`. -/
noncomputable def noteVelocity (energy : Option ℚ) (confidence : ℚ) : ℤ :=
  match energy with
  | some e => if 0 < e then _energy_to_velocity e else ⌊confidence * 77 + 50⌋
  | none => ⌊confidence * 77 + 50⌋

/-- A detected musical note (dataclass `Note` of models.py). -/
structure Note where
  midi_number : ℤ
  note_name : String
  start_time : ℚ
  duration : ℚ
  frequency : ℚ
  confidence : ℚ
  velocity : ℤ
  energy : Option ℚ
deriving DecidableEq, Repr

/-- `end_time` property of `Note`. -/
def Note.end_time (n : Note) : ℚ := n.start_time + n.duration

/-- Constructing a `Note` without an explicit velocity: `__post_init__`
computes the velocity from energy/confidence. -/
noncomputable def mkNote (midi : ℤ) (name : String) (start dur freq conf : ℚ)
    (vel : Option ℤ) (energy : Option ℚ) : Note :=
  { midi_number := midi
    note_name := name
    start_time := start
    duration := dur
    frequency := freq
    confidence := conf
    velocity := match vel with
      | some v => v
      | none => noteVelocity energy conf
    energy := energy }

@[simp] theorem mkNote_midi (m n s d f c v e) : (mkNote m n s d f c v e).midi_number = m := rfl
@[simp] theorem mkNote_name (m n s d f c v e) : (mkNote m n s d f c v e).note_name = n := rfl
@[simp] theorem mkNote_start (m n s d f c v e) : (mkNote m n s d f c v e).start_time = s := rfl
@[simp] theorem mkNote_duration (m n s d f c v e) : (mkNote m n s d f c v e).duration = d := rfl
@[simp] theorem mkNote_frequency (m n s d f c v e) : (mkNote m n s d f c v e).frequency = f := rfl
@[simp] theorem mkNote_confidence (m n s d f c v e) : (mkNote m n s d f c v e).confidence = c := rfl
@[simp] theorem mkNote_energy (m n s d f c v e) : (mkNote m n s d f c v e).energy = e := rfl
@[simp] theorem mkNote_end_time (m n s d f c v e) :
    (mkNote m n s d f c v e).end_time = s + d := rfl

/-- The velocity formula exactly as the C1 claim words it for the energy
branch: `clip(round(30 + n·90), 0, 127)` (rounding, not truncation). -/
noncomputable def claimVelocityEnergy (energy : ℚ) : ℤ :=
  let db : ℝ := 20 * Real.logb 10 (max (energy : ℝ) (1 / 10 ^ 10))
  let normalized : ℝ := max 0 (min 1 ((db - (-46)) / ((-6) - (-46))))
  max 0 (min 127 (round ((30 : ℝ) + normalized * 90)))

theorem logb_ten_hundredth : Real.logb 10 ((1 : ℝ) / 100) = -2 := by
  rw [show (1 : ℝ) / 100 = (10 : ℝ) ^ ((-2 : ℤ) : ℝ) by rw [Real.rpow_intCast]; norm_num]
  rw [Real.logb_rpow (by norm_num) (by norm_num)]
  norm_num

theorem energy_hundredth_normalized :
    max (0 : ℝ) (min 1 ((20 * Real.logb 10 (max ((1 / 100 : ℚ) : ℝ) (1 / 10 ^ 10)) - (-46)) /
      ((-6) - (-46)))) = 3 / 20 := by
  have h1 : max (((1 / 100 : ℚ) : ℝ)) (1 / 10 ^ 10) = (1 : ℝ) / 100 := by
    rw [max_eq_left]
    · norm_num
    · norm_num
  rw [h1, logb_ten_hundredth]
  norm_num

/-- C1 counterexample: at `energy = 1/100` (−40 dBFS) the code truncates
`30 + 0.15·90 = 43.5` to 43, while the claim's `round` gives 44. -/
theorem velocity_round_counterexample :
    noteVelocity (some (1 / 100)) (9 / 10) = 43 ∧ claimVelocityEnergy (1 / 100) = 44 := by
  constructor
  · show (if (0 : ℚ) < 1 / 100 then _energy_to_velocity (1 / 100) else _) = 43
    rw [if_pos (by norm_num)]
    unfold _energy_to_velocity
    rw [if_neg (by norm_num)]
    simp only [energy_hundredth_normalized]
    rw [show ((30 : ℝ) + 3 / 20 * (120 - 30)) = 87 / 2 by norm_num]
    rw [show ⌊(87 : ℝ) / 2⌋ = 43 by rw [Int.floor_eq_iff]; norm_num]
    norm_num
  · unfold claimVelocityEnergy
    simp only [energy_hundredth_normalized]
    rw [show ((30 : ℝ) + 3 / 20 * 90) = 87 / 2 by norm_num]
    rw [show round ((87 : ℝ) / 2) = 44 by rw [round_eq, Int.floor_eq_iff]; norm_num]
    norm_num

/-- The energy branch of the velocity formula as amended: truncation (`int`)
instead of rounding, i.e. `clip(int(30 + n·90), 0, 127)`. -/
noncomputable def amendedVelocityEnergy (e : ℚ) : ℤ :=
  let db : ℝ := 20 * Real.logb 10 (max (e : ℝ) (1 / 10 ^ 10))
  let n : ℝ := max 0 (min 1 ((db - (-46)) / ((-6) - (-46))))
  max 0 (min 127 ⌊(30 : ℝ) + n * 90⌋)

/-- The velocity assignment as amended: energy branch when energy is present
and positive, otherwise the confidence fallback clipped to [0, 127]. -/
noncomputable def amendedVelocity (energy : Option ℚ) (confidence : ℚ) : ℤ :=
  match energy with
  | some e =>
    if 0 < e then amendedVelocityEnergy e
    else max 0 (min 127 ⌊confidence * 77 + 50⌋)
  | none => max 0 (min 127 ⌊confidence * 77 + 50⌋)

theorem noteVelocity_none (c : ℚ) : noteVelocity none c = ⌊c * 77 + 50⌋ := rfl

theorem noteVelocity_some (e : ℚ) (c : ℚ) :
    noteVelocity (some e) c =
      if 0 < e then _energy_to_velocity e else ⌊c * 77 + 50⌋ := rfl

theorem amendedVelocity_none (c : ℚ) :
    amendedVelocity none c = max 0 (min 127 ⌊c * 77 + 50⌋) := rfl

theorem amendedVelocity_some (e : ℚ) (c : ℚ) :
    amendedVelocity (some e) c =
      if 0 < e then amendedVelocityEnergy e
      else max 0 (min 127 ⌊c * 77 + 50⌋) := rfl

theorem energy_to_velocity_eq_amended (e : ℚ) (he : 0 < e) :
    _energy_to_velocity e = amendedVelocityEnergy e := by
  unfold _energy_to_velocity amendedVelocityEnergy
  rw [if_neg (by linarith)]
  simp only []
  rw [show ((120 : ℝ) - 30) = 90 by norm_num]

/-- C1 (amended): for a `Note` constructed without an explicit velocity, if
energy is present and > 0 the velocity is `clip(int(30 + n·90), 0, 127)` with
`n = clip((db+46)/40, 0, 1)` and `db = 20·log10(max(energy, 1e-10))`;
otherwise it is `int(confidence·77 + 50)` clipped to [0, 127]; and whenever
`energy ≤ 0` (or absent) the velocity is at least 30. -/
theorem noteVelocity_spec (energy : Option ℚ) (conf : ℚ)
    (hc0 : 0 ≤ conf) (hc1 : conf ≤ 1) :
    noteVelocity energy conf = amendedVelocity energy conf ∧
    ((∀ e, energy = some e → e ≤ 0) → 30 ≤ noteVelocity energy conf) := by
  have hfloor : (50 : ℤ) ≤ ⌊conf * 77 + 50⌋ ∧ ⌊conf * 77 + 50⌋ ≤ 127 := by
    constructor
    · apply Int.le_floor.mpr
      push_cast
      nlinarith
    · calc ⌊conf * 77 + 50⌋ ≤ ⌊(127 : ℚ)⌋ := Int.floor_le_floor (by nlinarith)
        _ = 127 := by norm_num
  have hclip : max 0 (min 127 ⌊conf * 77 + 50⌋) = ⌊conf * 77 + 50⌋ := by
    rw [min_eq_right hfloor.2, max_eq_right (by linarith [hfloor.1])]
  constructor
  · rcases energy with _ | e
    · rw [noteVelocity_none, amendedVelocity_none, hclip]
    · by_cases he : 0 < e
      · rw [noteVelocity_some, amendedVelocity_some, if_pos he, if_pos he]
        exact energy_to_velocity_eq_amended e he
      · rw [noteVelocity_some, amendedVelocity_some, if_neg he, if_neg he, hclip]
  · intro hneg
    rcases energy with _ | e
    · rw [noteVelocity_none]
      linarith [hfloor.1]
    · have : e ≤ 0 := hneg e rfl
      rw [noteVelocity_some, if_neg (by linarith)]
      linarith [hfloor.1]

/-- Witness for C1 (amended) at energy absent, confidence 1/2. -/
theorem noteVelocity_spec_witness :
    noteVelocity none (1 / 2) = amendedVelocity none (1 / 2) ∧
    ((∀ e, (none : Option ℚ) = some e → e ≤ 0) → 30 ≤ noteVelocity none (1 / 2)) :=
  noteVelocity_spec none (1 / 2) (by norm_num) (by norm_num)

/-! ### src/src/audio/note_segmenter.py -/

/-- One pitch-detection frame (dataclass `PitchFrame` of models.py). -/
structure PitchFrame where
  time : ℚ
  frequency : ℚ
  confidence : ℚ
deriving DecidableEq, Repr

/-- `midi_to_note_name` from converters.py (on the validated range; the
source raises outside [0, 127], which never happens for segmenter output). -/
def midi_to_note_name (m : ℤ) : String :=
  (("C" :: "C#" :: "D" :: "D#" :: "E" :: "F" ::
    "F#" :: "G" :: "G#" :: "A" :: "A#" :: "B" :: []).getD
    (m % 12).toNat "") ++ toString (m.fdiv 12 - 1)

/-- A default note used only as the fallback of `List.getD`. -/
def dnote : Note := ⟨60, "C4", 0, 1, 440, 1, 64, none⟩

/-- `_maybe_add_note`: append a note for the closed candidate run unless it
is shorter than `min_duration` or has an empty buffer. -/
noncomputable def _maybe_add_note (notes : List Note) (midi : ℤ)
    (start_time end_time : ℚ) (freqs confs energies : List ℚ)
    (min_duration time_offset : ℚ) : List Note :=
  let duration := end_time - start_time
  if duration < min_duration ∨ freqs = [] then notes
  else
    let avg_freq := freqs.sum / freqs.length
    let avg_conf := confs.sum / confs.length
    let avg_energy : Option ℚ :=
      if energies = [] then none else some (energies.sum / energies.length)
    let energyField : Option ℚ := match avg_energy with
      | some a => if 0 < a then some a else none
      | none => none
    notes ++ [mkNote midi (midi_to_note_name midi)
      (pyRound 4 (start_time + time_offset)) (pyRound 4 duration)
      (pyRound 2 avg_freq) (pyRound 3 avg_conf) none energyField]

/-- The in-note state of the segmenter loop: current MIDI number, start time
and the frame buffers. -/
structure SegState where
  midi : ℤ
  start : ℚ
  freqs : List ℚ
  confs : List ℚ
  energies : List ℚ

/-- The `has_energy` part of the segmenter's validity gate: true when the
energy array is absent or shorter than the frame index, otherwise
`energy[i] > energy_threshold`. -/
def hasEnergyGate (energy : Option (List ℚ)) (eThr : ℚ) (i : ℕ) : Prop :=
  match energy with
  | some E => i < E.length → eThr < E.getD i 0
  | none => True

instance hasEnergyGate.dec (energy : Option (List ℚ)) (eThr : ℚ) (i : ℕ) :
    Decidable (hasEnergyGate energy eThr i) :=
  match energy with
  | some E => inferInstanceAs (Decidable (i < E.length → eThr < E.getD i 0))
  | none => .isTrue trivial

/-- The frame validity gate of `segment_notes`:
`frequency > min_freq and confidence >= confidence_threshold and has_energy`. -/
def frameValid (energy : Option (List ℚ)) (eThr cThr minFreq : ℚ)
    (fr : PitchFrame) (i : ℕ) : Prop :=
  minFreq < fr.frequency ∧ cThr ≤ fr.confidence ∧ hasEnergyGate energy eThr i

instance frameValid.dec (energy : Option (List ℚ)) (eThr cThr minFreq : ℚ)
    (fr : PitchFrame) (i : ℕ) :
    Decidable (frameValid energy eThr cThr minFreq fr i) :=
  inferInstanceAs (Decidable (_ ∧ _ ∧ _))

/-- The per-frame energy value used for the buffers: `energy[i]` when
available, else 0. -/
def frameEnergy (energy : Option (List ℚ)) (i : ℕ) : ℚ :=
  match energy with
  | some E => if i < E.length then E.getD i 0 else 0
  | none => 0

/-- The main loop of `segment_notes`: a state machine over frames, emitting
candidate notes via `_maybe_add_note` on pitch changes and invalid frames. -/
noncomputable def segLoop (energy : Option (List ℚ))
    (eThr cThr minFreq minDur off : ℚ) :
    List PitchFrame → ℕ → Option SegState → List Note →
      List Note × Option SegState
  | [], _, st, notes => (notes, st)
  | fr :: rest, i, st, notes =>
    if frameValid energy eThr cThr minFreq fr i then
      let m := hzToMidiNum (fr.frequency : ℝ)
      match st with
      | none =>
        segLoop energy eThr cThr minFreq minDur off rest (i + 1)
          (some ⟨m, fr.time, [fr.frequency], [fr.confidence],
                 [frameEnergy energy i]⟩) notes
      | some s =>
        if m = s.midi then
          segLoop energy eThr cThr minFreq minDur off rest (i + 1)
            (some ⟨s.midi, s.start, s.freqs ++ [fr.frequency],
                   s.confs ++ [fr.confidence],
                   s.energies ++ [frameEnergy energy i]⟩) notes
        else
          segLoop energy eThr cThr minFreq minDur off rest (i + 1)
            (some ⟨m, fr.time, [fr.frequency], [fr.confidence],
                   [frameEnergy energy i]⟩)
            (_maybe_add_note notes s.midi s.start fr.time s.freqs s.confs
              s.energies minDur off)
    else
      match st with
      | none => segLoop energy eThr cThr minFreq minDur off rest (i + 1) none notes
      | some s =>
        segLoop energy eThr cThr minFreq minDur off rest (i + 1) none
          (_maybe_add_note notes s.midi s.start fr.time s.freqs s.confs
            s.energies minDur off)

/-- `segment_notes`: run the state machine over all frames, then close a
trailing open note with `end = last_frame.time + 0.01`. -/
noncomputable def segment_notes (frames : List PitchFrame)
    (energy : Option (List ℚ)) (eThr cThr minFreq minDur off : ℚ) :
    List Note :=
  match frames with
  | [] => []
  | f0 :: rest =>
    let r := segLoop energy eThr cThr minFreq minDur off (f0 :: rest) 0 none []
    match r.2 with
    | some s =>
      if s.freqs ≠ [] then
        _maybe_add_note r.1 s.midi s.start (((f0 :: rest).getLastD f0).time + 1 / 100)
          s.freqs s.confs s.energies minDur off
      else r.1
    | none => r.1

/-- `merge_same_pitch_notes`: fuse two adjacent same-pitch notes separated by
a gap in [0, max_gap], weighting averages by duration. -/
noncomputable def fuseNotes (prev cur : Note) (gap : ℚ) : Note :=
  let total_dur := prev.duration + cur.duration + gap
  let w_prev := prev.duration / total_dur
  let w_note := cur.duration / total_dur
  let avg_freq := prev.frequency * w_prev + cur.frequency * w_note
  let avg_conf := prev.confidence * w_prev + cur.confidence * w_note
  let avg_energy : Option ℚ := match prev.energy, cur.energy with
    | some a, some b => some (a * w_prev + b * w_note)
    | some a, none => some a
    | none, some b => some b
    | none, none => none
  mkNote prev.midi_number prev.note_name prev.start_time (pyRound 4 total_dur)
    (pyRound 2 avg_freq) (pyRound 3 avg_conf) none avg_energy

/-- The walk of `merge_same_pitch_notes`: `prev` is the current last element
of the merged list (`merged[-1]`). -/
noncomputable def mergeGo (max_gap : ℚ) (prev : Note) : List Note → List Note
  | [] => [prev]
  | cur :: rest =>
    let gap := cur.start_time - prev.end_time
    if cur.midi_number = prev.midi_number ∧ 0 ≤ gap ∧ gap ≤ max_gap then
      mergeGo max_gap (fuseNotes prev cur gap) rest
    else prev :: mergeGo max_gap cur rest

/-- `merge_same_pitch_notes` (lists of length ≤ 1 are returned unchanged,
which coincides with running the walk). -/
noncomputable def merge_same_pitch_notes (notes : List Note) (max_gap : ℚ) :
    List Note :=
  match notes with
  | [] => []
  | n :: rest => mergeGo max_gap n rest

/-- `filter_short_notes`: drop notes with `duration < min_duration`. -/
def filter_short_notes (notes : List Note) (min_duration : ℚ) : List Note :=
  notes.filter (fun n => min_duration ≤ n.duration)

/-- First index of the maximum of a window (`np.argmax`), accumulator form. -/
def argmaxAux (best : ℚ) (bestIdx i : ℕ) : List ℚ → ℕ
  | [] => bestIdx
  | y :: ys => if best < y then argmaxAux y i (i + 1) ys
               else argmaxAux best bestIdx (i + 1) ys

/-- `np.argmax`: index of the first occurrence of the maximum. -/
def argmaxIdx : List ℚ → ℕ
  | [] => 0
  | x :: xs => argmaxAux x 0 1 xs

/-- `np.diff(energy, prepend=energy[0])`: `D[0] = 0`, `D[i] = E[i] − E[i−1]`. -/
def energyDiff (E : List ℚ) : List ℚ :=
  match E with
  | [] => []
  | e0 :: _ => E.zipWith (fun a b => a - b) (e0 :: E)

/-- The loop of `refine_onsets`; `prevEnd` is `refined[-1].end_time` (absent
on the first iteration). -/
noncomputable def refineGo (D : List ℚ) (off : ℚ) (lookback : ℕ) (hop : ℚ) :
    Option ℚ → List Note → List Note
  | _, [] => []
  | prevEnd, note :: rest =>
    let raw := note.start_time - off
    let frame_idx : ℤ := max 0 (min (round (raw / hop)) ((D.length : ℤ) - 1))
    let search_start : ℤ := max 0 (frame_idx - lookback)
    let search_end : ℤ := frame_idx + 1
    if search_start < search_end ∧ search_end ≤ (D.length : ℤ) then
      let window := (D.drop search_start.toNat).take (search_end - search_start).toNat
      let onset_frame : ℤ := search_start + argmaxIdx window
      let new_start0 := pyRound 4 ((onset_frame : ℚ) * hop + off)
      let new_start := match prevEnd with
        | some pe => max new_start0 pe
        | none => new_start0
      if new_start ≤ note.start_time then
        let new_duration := pyRound 4 (note.end_time - new_start)
        if 0 < new_duration then
          refineGo D off lookback hop
            (some (new_start + new_duration))
            rest |> fun tail =>
              (mkNote note.midi_number note.note_name new_start new_duration
                note.frequency note.confidence none note.energy) :: tail
        else note :: refineGo D off lookback hop (some note.end_time) rest
      else note :: refineGo D off lookback hop (some note.end_time) rest
    else note :: refineGo D off lookback hop (some note.end_time) rest

/-- `refine_onsets`: back-date each note start to the maximum of the energy
derivative within the lookback window of frames, never moving a start later
and never overlapping the previously refined note. -/
noncomputable def refine_onsets (notes : List Note) (energy : List ℚ)
    (off : ℚ) (lookback : ℕ) (hop : ℚ) : List Note :=
  if energy.length = 0 ∨ notes = [] then notes
  else refineGo (energyDiff energy) off lookback hop none notes

/-! ### Merge invariant (C2) -/

theorem mergeGo_cons (mg : ℚ) :
    ∀ (l : List Note) (p : Note), ∃ h t, mergeGo mg p l = h :: t ∧
      h.start_time = p.start_time ∧ h.midi_number = p.midi_number := by
  intro l
  induction l with
  | nil => intro p; exact ⟨p, [], rfl, rfl, rfl⟩
  | cons cur rest ih =>
    intro p
    by_cases hc : cur.midi_number = p.midi_number ∧
        0 ≤ cur.start_time - p.end_time ∧ cur.start_time - p.end_time ≤ mg
    · obtain ⟨h, t, heq, hs, hm⟩ := ih (fuseNotes p cur (cur.start_time - p.end_time))
      refine ⟨h, t, ?_, ?_, ?_⟩
      · simp only [mergeGo]
        rw [if_pos hc]
        exact heq
      · rw [hs]; rfl
      · rw [hm]; rfl
    · refine ⟨p, mergeGo mg cur rest, ?_, rfl, rfl⟩
      simp only [mergeGo]
      rw [if_neg hc]

theorem mergeGo_gap_chain (mg : ℚ) :
    ∀ (l : List Note) (p : Note),
      List.Chain' (fun a b : Note => a.midi_number = b.midi_number →
        mg < b.start_time - a.end_time ∨ b.start_time - a.end_time < 0)
        (mergeGo mg p l) := by
  intro l
  induction l with
  | nil => intro p; simp [mergeGo]
  | cons cur rest ih =>
    intro p
    by_cases hc : cur.midi_number = p.midi_number ∧
        0 ≤ cur.start_time - p.end_time ∧ cur.start_time - p.end_time ≤ mg
    · simp only [mergeGo]
      rw [if_pos hc]
      exact ih _
    · simp only [mergeGo]
      rw [if_neg hc]
      obtain ⟨h, t, heq, hs, hm⟩ := mergeGo_cons mg rest cur
      rw [heq]
      refine List.Chain'.cons ?_ ?_
      · intro hpm
        push_neg at hc
        rw [hs]
        rcases lt_or_le (cur.start_time - p.end_time) 0 with hlt | hge
        · right; exact hlt
        · left
          have := hc (by rw [← hm, ← hpm]) hge
          linarith
      · rw [← heq]; exact ih _

/-- C2 (amended): after the merge stage, any two consecutive notes with
equal `midi_number` satisfy `next.start − prev.end > 0.08` unless they
overlap (`next.start − prev.end < 0`); the counterexample below shows the
later stages (onset refinement, key-outlier removal) can shrink the gap of
two consecutive same-pitch notes to ≤ 0.08, so the claimed invariant holds
only immediately after `merge_same_pitch_notes`. -/
theorem merge_same_pitch_gap_invariant (notes : List Note) (mg : ℚ) :
    List.Chain' (fun a b : Note => a.midi_number = b.midi_number →
        mg < b.start_time - a.end_time ∨ b.start_time - a.end_time < 0)
      (merge_same_pitch_notes notes mg) := by
  match notes with
  | [] => simp [merge_same_pitch_notes]
  | n :: rest => exact mergeGo_gap_chain mg rest n

/-! ### Onset refinement soundness (C7) -/

/-- The post-condition of onset refinement: same length, starts only move
earlier, end times are preserved, the output does not overlap, and the first
output note does not start before `pe` (the previous refined end). -/
def RefinedOK (input output : List Note) (pe : Option ℚ) : Prop :=
  output.length = input.length ∧
  (∀ i (h1 : i < output.length) (h2 : i < input.length),
     (output.get ⟨i, h1⟩).start_time ≤ (input.get ⟨i, h2⟩).start_time ∧
     (output.get ⟨i, h1⟩).end_time = (input.get ⟨i, h2⟩).end_time) ∧
  List.Chain' (fun a b => a.end_time ≤ b.start_time) output ∧
  (∀ p, pe = some p → ∀ n0 ∈ output.head?, p ≤ n0.start_time)

theorem refineGo_step (D : List ℚ) (off : ℚ) (lb : ℕ) (hop : ℚ)
    (pe : Option ℚ) (note : Note) (rest : List Note)
    (hpe : ∀ p, pe = some p → isGrid4 p) :
    refineGo D off lb hop pe (note :: rest) =
      note :: refineGo D off lb hop (some note.end_time) rest ∨
    ∃ ns nd, refineGo D off lb hop pe (note :: rest) =
        mkNote note.midi_number note.note_name ns nd note.frequency
          note.confidence none note.energy ::
          refineGo D off lb hop (some (ns + nd)) rest ∧
      ns ≤ note.start_time ∧ nd = pyRound 4 (note.end_time - ns) ∧ 0 < nd ∧
      isGrid4 ns ∧ (∀ p, pe = some p → p ≤ ns) := by
  rcases pe with _ | p
  · simp only [refineGo]
    split_ifs with h1 h2 h3
    · right
      refine ⟨_, _, rfl, h2, rfl, h3, pyRound_isGrid4 _, fun p hp => by cases hp⟩
    · left; rfl
    · left; rfl
    · left; rfl
  · simp only [refineGo]
    split_ifs with h1 h2 h3
    · right
      refine ⟨_, _, rfl, h2, rfl, h3, isGrid4_max (pyRound_isGrid4 _) (hpe p rfl),
        fun q hq => ?_⟩
      cases hq
      exact le_max_right _ _
    · left; rfl
    · left; rfl
    · left; rfl

theorem refineGo_sound (D : List ℚ) (off : ℚ) (lb : ℕ) (hop : ℚ) :
    ∀ (notes : List Note) (pe : Option ℚ),
      (∀ n ∈ notes, isGrid4 n.start_time ∧ isGrid4 n.duration) →
      List.Chain' (fun a b => a.end_time ≤ b.start_time) notes →
      (∀ p, pe = some p → isGrid4 p) →
      (∀ p, pe = some p → ∀ n0 ∈ notes.head?, p ≤ n0.start_time) →
      RefinedOK notes (refineGo D off lb hop pe notes) pe := by
  intro notes
  induction notes with
  | nil =>
    intro pe _ _ _ _
    refine ⟨rfl, ?_, ?_, ?_⟩
    · intro i h1 h2; exact absurd h1 (by simp [refineGo])
    · simp [refineGo]
    · intro p _ n0 hn0; simp [refineGo] at hn0
  | cons note rest ih =>
    intro pe hgrid hsorted hpeg hpeh
    have hg0 : isGrid4 note.start_time ∧ isGrid4 note.duration :=
      hgrid note (List.mem_cons_self note rest)
    have hgrest : ∀ n ∈ rest, isGrid4 n.start_time ∧ isGrid4 n.duration :=
      fun n hn => hgrid n (List.mem_cons_of_mem note hn)
    have hend_grid : isGrid4 note.end_time := isGrid4_add hg0.1 hg0.2
    have hchain := List.chain'_cons'.mp hsorted
    have hrec : RefinedOK rest
        (refineGo D off lb hop (some note.end_time) rest) (some note.end_time) :=
      ih (some note.end_time) hgrest hchain.2
        (fun p hp => by cases hp; exact hend_grid)
        (fun p hp n0 hn0 => by cases hp; exact hchain.1 n0 hn0)
    rcases refineGo_step D off lb hop pe note rest hpeg with
      hkeep | ⟨ns, nd, heq, hns_le, hnd_eq, hnd_pos, hns_grid, hns_ge⟩
    · rw [hkeep]
      obtain ⟨hlen, hget, hchn, hhd⟩ := hrec
      refine ⟨by simp [hlen], ?_, ?_, ?_⟩
      · intro i h1 h2
        match i with
        | 0 => exact ⟨le_refl _, rfl⟩
        | j + 1 =>
          simp only [List.get_cons_succ]
          exact hget j (by simpa using h1) (by simpa using h2)
      · refine List.chain'_cons'.mpr ⟨?_, hchn⟩
        intro b hb
        exact hhd note.end_time rfl b hb
      · intro p hp n0 hn0
        simp only [List.head?_cons, Option.mem_def, Option.some.injEq] at hn0
        subst hn0
        exact hpeh p hp note (by simp)
    · have hnd2 : nd = note.end_time - ns := by
        rw [hnd_eq]
        exact pyRound_of_isGrid4 (isGrid4_sub hend_grid hns_grid)
      have hsum : ns + nd = note.end_time := by rw [hnd2]; ring
      rw [hsum] at heq
      rw [heq]
      obtain ⟨hlen, hget, hchn, hhd⟩ := hrec
      refine ⟨by simp [hlen], ?_, ?_, ?_⟩
      · intro i h1 h2
        match i with
        | 0 =>
          constructor
          · simpa using hns_le
          · show (mkNote _ _ _ _ _ _ _ _).end_time = note.end_time
            rw [mkNote_end_time, hsum]
        | j + 1 =>
          simp only [List.get_cons_succ]
          exact hget j (by simpa using h1) (by simpa using h2)
      · refine List.chain'_cons'.mpr ⟨?_, hchn⟩
        intro b hb
        rw [mkNote_end_time, hsum]
        exact hhd note.end_time rfl b hb
      · intro p hp n0 hn0
        simp only [List.head?_cons, Option.mem_def, Option.some.injEq] at hn0
        subst hn0
        rw [mkNote_start]
        exact hns_ge p hp

/-- C7 (amended): for every input note list whose starts and durations lie on
the 4-decimal grid (as all segmenter/merge output does), sorted with no
overlaps, onset refinement preserves the number of notes, never moves a
start later, preserves every end time exactly, and keeps the output
non-overlapping (`next.start ≥ prev.end`).  The counterexample below shows
that for inputs off the 4-decimal grid, the rounding of the refined duration
can push a refined end past the next start by up to 0.00005. -/
theorem refine_onsets_sound (notes : List Note) (E : List ℚ) (off : ℚ)
    (lb : ℕ) (hop : ℚ)
    (hgrid : ∀ n ∈ notes, isGrid4 n.start_time ∧ isGrid4 n.duration)
    (hsorted : List.Chain' (fun a b => a.end_time ≤ b.start_time) notes) :
    RefinedOK notes (refine_onsets notes E off lb hop) none := by
  unfold refine_onsets
  split_ifs with h
  · refine ⟨rfl, ?_, hsorted, ?_⟩
    · intro i h1 h2
      have : h1 = h2 := rfl
      exact ⟨le_refl _, rfl⟩
    · intro p hp; cases hp
  · exact refineGo_sound (energyDiff E) off lb hop notes none hgrid hsorted
      (fun p hp => by cases hp) (fun p hp => by cases hp)

/-- Witness for C7 (amended) on a one-note list on the 4-decimal grid. -/
theorem refine_onsets_sound_witness :
    RefinedOK [⟨60, "C4", 1/10, 1/10, 440, 9/10, 119, none⟩]
      (refine_onsets [⟨60, "C4", 1/10, 1/10, 440, 9/10, 119, none⟩] [0] 0 5 (1/100))
      none :=
  refine_onsets_sound _ [0] 0 5 (1/100)
    (by
      intro n hn
      simp only [List.mem_singleton] at hn
      subst hn
      exact ⟨⟨1000, by norm_num⟩, ⟨1000, by norm_num⟩⟩)
    (by simp)

/-- The first note of the C7/C2 counterexamples. -/
def noteA : Note := ⟨60, "C4", 1/20, 80051/1000000, 440, 9/10, 119, none⟩

/-- The second note of the C7 counterexample: starts exactly at `noteA`'s end. -/
def noteB : Note := ⟨60, "C4", 130051/1000000, 1/10, 440, 9/10, 119, none⟩

theorem refine_eval :
    refine_onsets [noteA, noteB] [0,0,0,0,0,0,0,0,0,0,0,0,0,0] 0 5 (1/100) =
      [mkNote 60 "C4" 0 (1301/10000) 440 (9/10) none none, noteB] := by
  have htake6 : ∀ (a b c d e f : ℚ) (l : List ℚ),
      List.take (Int.toNat 6) (a::b::c::d::e::f::l) = [a,b,c,d,e,f] :=
    fun _ _ _ _ _ _ _ => rfl
  have hdrop8 : ∀ (a b c d e f g h : ℚ) (l : List ℚ),
      List.drop (Int.toNat 8) (a::b::c::d::e::f::g::h::l) = l :=
    fun _ _ _ _ _ _ _ _ _ => rfl
  norm_num [refine_onsets, refineGo, energyDiff, argmaxIdx, argmaxAux, pyRound,
    round_eq, Note.end_time, noteA, noteB, List.zipWith, htake6, hdrop8, max_def]
  intro h
  simp at h

/-- C7 counterexample: the input pair (`noteA`, `noteB`) is sorted with no
overlap (`noteB` starts exactly at `noteA`'s end, 0.130051 s), but its start
and duration are not 4-decimal values; refining `noteA`'s onset to frame 0
rounds its new duration 0.130051 up to 0.1301, so the refined `noteA` ends
at 0.1301 while `noteB` (kept unchanged) still starts at 0.130051 — the
output violates `next.start ≥ prev.end`. -/
theorem refine_onsets_overlap_counterexample :
    noteA.end_time ≤ noteB.start_time ∧
    ((refine_onsets [noteA, noteB] [0,0,0,0,0,0,0,0,0,0,0,0,0,0] 0 5 (1/100)).getD 1 dnote).start_time <
      ((refine_onsets [noteA, noteB] [0,0,0,0,0,0,0,0,0,0,0,0,0,0] 0 5 (1/100)).getD 0 dnote).end_time := by
  constructor
  · norm_num [noteA, noteB, Note.end_time]
  · rw [refine_eval]
    norm_num [noteA, noteB, Note.end_time]

/-! ### Segmenter on a uniform valid run (C8) -/

theorem getLastD_eq_get {α : Type} :
    ∀ (l : List α) (d : α) (h : 0 < l.length),
      l.getLastD d = l.get ⟨l.length - 1, by omega⟩
  | [], _, h => absurd h (by simp)
  | [a], _, _ => rfl
  | a :: b :: t, d, _ => by
    have ih := getLastD_eq_get (b :: t) a (by simp)
    show (b :: t).getLastD a = _
    rw [ih]
    have hidx : (a :: b :: t).length - 1 = ((b :: t).length - 1) + 1 := by
      simp
    congr 1

theorem segLoop_all_valid (energy : Option (List ℚ))
    (eThr cThr minFreq minDur off : ℚ) :
    ∀ (frames : List PitchFrame) (i : ℕ) (s : SegState) (notes : List Note),
      (∀ k (hk : k < frames.length),
        frameValid energy eThr cThr minFreq (frames.get ⟨k, hk⟩) (i + k)) →
      (∀ fr ∈ frames, hzToMidiNum (fr.frequency : ℝ) = s.midi) →
      s.freqs ≠ [] →
      ∃ s2 : SegState,
        segLoop energy eThr cThr minFreq minDur off frames i (some s) notes =
          (notes, some s2) ∧
        s2.midi = s.midi ∧ s2.start = s.start ∧ s2.freqs ≠ [] := by
  intro frames
  induction frames with
  | nil =>
    intro i s notes _ _ hs
    exact ⟨s, rfl, rfl, rfl, hs⟩
  | cons fr rest ih =>
    intro i s notes hval hmidi hs
    have hv0 : frameValid energy eThr cThr minFreq fr i := by
      have h := hval 0 (by simp)
      simpa using h
    have hm : hzToMidiNum (fr.frequency : ℝ) = s.midi :=
      hmidi fr (List.mem_cons_self _ _)
    have step : segLoop energy eThr cThr minFreq minDur off (fr :: rest) i
          (some s) notes =
        segLoop energy eThr cThr minFreq minDur off rest (i + 1)
          (some ⟨s.midi, s.start, s.freqs ++ [fr.frequency],
                 s.confs ++ [fr.confidence],
                 s.energies ++ [frameEnergy energy i]⟩) notes := by
      simp only [segLoop]
      rw [if_pos hv0, hm, if_pos rfl]
    rw [step]
    obtain ⟨s2, heq, h1, h2, h3⟩ :=
      ih (i + 1)
        ⟨s.midi, s.start, s.freqs ++ [fr.frequency], s.confs ++ [fr.confidence],
         s.energies ++ [frameEnergy energy i]⟩ notes
        (by
          intro k hk
          have hk2 : k + 1 < (fr :: rest).length := by
            simpa using Nat.succ_lt_succ hk
          have h := hval (k + 1) hk2
          simp only [List.get_cons_succ] at h
          have harith : i + (k + 1) = i + 1 + k := by omega
          rwa [harith] at h)
        (fun fr2 h2 => hmidi fr2 (List.mem_cons_of_mem _ h2))
        (by simp)
    exact ⟨s2, heq, h1, h2, h3⟩

/-- C8: a sequence of N ≥ 5 frames at times i·0.01 that all pass the
validity gate (frequency > 80 Hz, confidence ≥ threshold, energy above
threshold) and map to one common MIDI number m yields exactly one note of
duration N·0.01 (the last frame contributes its 0.01 s tail) whose
start_time is round(0 + time_offset, 4). -/
theorem segment_notes_single_run (N : ℕ) (hN : 5 ≤ N)
    (frames : List PitchFrame) (energy : Option (List ℚ))
    (eThr cThr off : ℚ) (m : ℤ)
    (hlen : frames.length = N)
    (htime : ∀ k (hk : k < frames.length),
      (frames.get ⟨k, hk⟩).time = (k : ℚ) / 100)
    (hval : ∀ k (hk : k < frames.length),
      frameValid energy eThr cThr 80 (frames.get ⟨k, hk⟩) k)
    (hmidi : ∀ fr ∈ frames, hzToMidiNum (fr.frequency : ℝ) = m) :
    ∃ nt : Note, segment_notes frames energy eThr cThr 80 (1/20) off = [nt] ∧
      nt.midi_number = m ∧ nt.duration = (N : ℚ) / 100 ∧
      nt.start_time = pyRound 4 (0 + off) := by
  rcases frames with _ | ⟨f0, rest⟩
  · rw [List.length_nil] at hlen
    omega
  have hv0 : frameValid energy eThr cThr 80 f0 0 := by
    have h := hval 0 (by simp)
    simpa using h
  have hm0 : hzToMidiNum (f0.frequency : ℝ) = m :=
    hmidi f0 (List.mem_cons_self _ _)
  have ht0 : f0.time = 0 := by
    have h := htime 0 (by simp)
    simpa using h
  have step : segLoop energy eThr cThr 80 (1/20) off (f0 :: rest) 0 none [] =
      segLoop energy eThr cThr 80 (1/20) off rest 1
        (some ⟨hzToMidiNum (f0.frequency : ℝ), f0.time, [f0.frequency],
               [f0.confidence], [frameEnergy energy 0]⟩) [] := by
    simp only [segLoop]
    rw [if_pos hv0]
  obtain ⟨s2, heq, hmid2, hst2, hfr2⟩ :=
    segLoop_all_valid energy eThr cThr 80 (1/20) off rest 1
      ⟨hzToMidiNum (f0.frequency : ℝ), f0.time, [f0.frequency],
       [f0.confidence], [frameEnergy energy 0]⟩ []
      (by
        intro k hk
        have hk2 : k + 1 < (f0 :: rest).length := by
          simpa using Nat.succ_lt_succ hk
        have h := hval (k + 1) hk2
        simp only [List.get_cons_succ] at h
        have harith : k + 1 = 1 + k := by omega
        rwa [harith] at h)
      (by
        intro fr2 h2
        show hzToMidiNum (fr2.frequency : ℝ) = hzToMidiNum (f0.frequency : ℝ)
        rw [hmidi fr2 (List.mem_cons_of_mem _ h2), hm0])
      (by simp)
  have hlast : ((f0 :: rest).getLastD f0).time = ((N : ℚ) - 1) / 100 := by
    rw [getLastD_eq_get (f0 :: rest) f0 (by simp)]
    rw [htime ((f0 :: rest).length - 1) (by omega)]
    have hlen2 : (f0 :: rest).length - 1 = N - 1 := by omega
    rw [hlen2]
    have : ((N - 1 : ℕ) : ℚ) = (N : ℚ) - 1 := by
      have h1 : (1 : ℕ) ≤ N := by omega
      push_cast [Nat.cast_sub h1]
      ring
    rw [this]
  have hdur : ((f0 :: rest).getLastD f0).time + 1 / 100 - s2.start = (N : ℚ) / 100 := by
    rw [hlast, hst2]
    show ((N : ℚ) - 1) / 100 + 1 / 100 - f0.time = (N : ℚ) / 100
    rw [ht0]
    ring
  have hNq : (1 : ℚ) / 20 ≤ (N : ℚ) / 100 := by
    have : (5 : ℚ) ≤ (N : ℚ) := by exact_mod_cast hN
    linarith
  show ∃ nt, segment_notes (f0 :: rest) energy eThr cThr 80 (1/20) off = [nt] ∧ _
  refine ⟨mkNote s2.midi (midi_to_note_name s2.midi)
    (pyRound 4 (s2.start + off))
    (pyRound 4 (((f0 :: rest).getLastD f0).time + 1 / 100 - s2.start))
    (pyRound 2 (s2.freqs.sum / s2.freqs.length))
    (pyRound 3 (s2.confs.sum / s2.confs.length))
    none
    (match (if s2.energies = [] then none
            else some (s2.energies.sum / s2.energies.length) : Option ℚ) with
     | some a => if 0 < a then some a else none
     | none => none), ?_, ?_, ?_, ?_⟩
  · show segment_notes (f0 :: rest) energy eThr cThr 80 (1/20) off = _
    simp only [segment_notes]
    rw [step, heq]
    simp only [ne_eq]
    rw [if_pos (by simpa using hfr2)]
    unfold _maybe_add_note
    rw [if_neg (by
      push_neg
      constructor
      · rw [hdur]; linarith
      · exact hfr2)]
    simp only [List.nil_append]
  · simp only [mkNote_midi]
    rw [hmid2]
    exact hm0
  · simp only [mkNote_duration]
    rw [hdur]
    exact pyRound_of_isGrid4 ⟨100 * N, by push_cast; ring⟩
  · simp only [mkNote_start]
    rw [hst2]
    show pyRound 4 (f0.time + off) = _
    rw [ht0]

theorem hzToMidiNum_440 : hzToMidiNum ((440 : ℚ) : ℝ) = 69 := by
  unfold hzToMidiNum
  rw [show ((440 : ℚ) : ℝ) / 440 = 1 by norm_num]
  rw [Real.logb_one]
  rw [show (69 : ℝ) + 12 * 0 = ((69 : ℤ) : ℝ) by norm_num]
  rw [round_intCast]
  norm_num

/-- Five frames at 10 ms hop, all 440 Hz with confidence 1. -/
def frames5 : List PitchFrame :=
  [⟨0, 440, 1⟩, ⟨1/100, 440, 1⟩, ⟨2/100, 440, 1⟩, ⟨3/100, 440, 1⟩, ⟨4/100, 440, 1⟩]

/-- Witness for C8: five uniform A4 frames with unit energy produce one note
of duration 0.05 starting at round(0 + 0.7, 4). -/
theorem segment_notes_single_run_witness :
    ∃ nt : Note,
      segment_notes frames5 (some (List.replicate 5 1)) (1/100) (1/2) 80 (1/20) (7/10) = [nt] ∧
      nt.midi_number = 69 ∧ nt.duration = ((5 : ℕ) : ℚ) / 100 ∧
      nt.start_time = pyRound 4 (0 + 7/10) :=
  segment_notes_single_run 5 (by norm_num) frames5 (some (List.replicate 5 1))
    (1/100) (1/2) (7/10) 69 rfl
    (by
      intro k hk
      have hk5 : k < 5 := hk
      interval_cases k <;> norm_num [frames5, List.get])
    (by
      intro k hk
      have hk5 : k < 5 := hk
      refine ⟨?_, ?_, ?_⟩
      · interval_cases k <;> norm_num [frames5, List.get]
      · interval_cases k <;> norm_num [frames5, List.get]
      · show hasEnergyGate (some (List.replicate 5 1)) (1/100) k
        unfold hasEnergyGate
        intro hk2
        have : (List.replicate 5 (1 : ℚ)).getD k 0 = 1 := by
          interval_cases k <;> rfl
        rw [this]
        norm_num)
    (by
      intro fr hfr
      fin_cases hfr <;> exact hzToMidiNum_440)

/-! ### src/src/audio/key_detector.py -/

/-- The mode of a detected key ("major" / "minor" strings in the source). -/
inductive Mode
  | major
  | minor
deriving DecidableEq, Repr

/-- Krumhansl-Kessler major profile (index 0 = tonic). -/
def MAJOR_PROFILE : Fin 12 → ℚ := fun i =>
  [6.35, 2.23, 3.48, 2.33, 4.38, 4.09, 2.52, 5.19, 2.39, 3.66, 2.29, 2.88].getD i.val 0

/-- Krumhansl-Kessler minor profile (index 0 = tonic). -/
def MINOR_PROFILE : Fin 12 → ℚ := fun i =>
  [6.33, 2.68, 3.52, 5.38, 2.60, 3.53, 2.54, 4.75, 3.98, 2.69, 3.34, 3.17].getD i.val 0

def modeProfile : Mode → (Fin 12 → ℚ)
  | Mode.major => MAJOR_PROFILE
  | Mode.minor => MINOR_PROFILE

def modeName : Mode → String
  | Mode.major => "major"
  | Mode.minor => "minor"

def _NOTE_NAMES : List String :=
  "C" :: "C#" :: "D" :: "D#" :: "E" :: "F" ::
    "F#" :: "G" :: "G#" :: "A" :: "A#" :: "B" :: []

/-- `rotated[i] = profile[(i - tonic) % 12]`: align the profile tonic with
pitch class `tonic`. -/
def rotatedProfile (tonic : Fin 12) (m : Mode) : Fin 12 → ℚ :=
  fun i => modeProfile m (i - tonic)

/-- Mean of a 12-bin vector. -/
def fmean (x : Fin 12 → ℚ) : ℚ := (∑ i, x i) / 12

/-- Centered sum of squares. -/
def sumSq (x : Fin 12 → ℚ) : ℚ := ∑ i, (x i - fmean x) ^ 2

/-- Centered cross sum. -/
def sumCross (x y : Fin 12 → ℚ) : ℚ :=
  ∑ i, (x i - fmean x) * (y i - fmean y)

/-- `np.corrcoef(x, y)[0, 1]`: the Pearson correlation
`sumCross/(sqrt(sumSq x * sumSq y))`, NaN (modelled `none`) exactly when one
of the variances vanishes (a constant vector). -/
noncomputable def pearson (x y : Fin 12 → ℚ) : Option ℝ :=
  if sumSq x = 0 ∨ sumSq y = 0 then none
  else some ((sumCross x y : ℝ) / Real.sqrt (((sumSq x : ℝ)) * ((sumSq y : ℝ))))

/-- The 24 key candidates in source order: tonic 0..11, major before minor. -/
def candList : List (Fin 12 × Mode) :=
  (List.finRange 12).flatMap (fun t => [(t, Mode.major), (t, Mode.minor)])

/-- One iteration of the `_find_best_key` loop: skip NaN, replace the best on
a strictly greater correlation. -/
noncomputable def bestCandStep (h : Fin 12 → ℚ)
    (st : (Fin 12 × Mode) × ℝ) (c : Fin 12 × Mode) : (Fin 12 × Mode) × ℝ :=
  match pearson h (rotatedProfile c.1 c.2) with
  | none => st
  | some r => if st.2 < r then (c, r) else st

/-- `_find_best_key`: fold over the 24 candidates starting from
`(tonic 0, major, best_corr = -2.0)`, then report `(best_corr + 1)/2`
rounded to 4 decimals. -/
noncomputable def _find_best_key (h : Fin 12 → ℚ) : (Fin 12 × Mode) × ℝ :=
  let best := candList.foldl (bestCandStep h) ((0, Mode.major), -2)
  (best.1, pyRound4R ((best.2 + 1) / 2))

/-- Tonal annotation for a time window (dataclass `SectionKey`). -/
structure SectionKey where
  start_time : ℚ
  end_time : ℚ
  key_name : String
  tonic : Fin 12
  mode : Mode
  correlation : ℝ

/-- Pitch class `midi % 12` (Python `%` on a positive modulus is
non-negative, as is Lean's `Int.emod`). -/
def pcOf (m : ℤ) : Fin 12 :=
  ⟨(m % 12).toNat, by omega⟩

/-- The duration-weighted pitch-class histogram of the notes intersecting
the window `[ws, we)`. -/
def windowHist (notes : List Note) (ws we : ℚ) : Fin 12 → ℚ :=
  notes.foldl
    (fun hist n =>
      if we ≤ n.start_time ∨ n.end_time ≤ ws then hist
      else
        let weight := min n.end_time we - max n.start_time ws
        if 0 < weight then
          Function.update hist (pcOf n.midi_number)
            (hist (pcOf n.midi_number) + weight)
        else hist)
    (fun _ => 0)

/-- Modelled from the spec: `settings.KEY_WINDOW_SECONDS`, referenced as the
default of key_detector.py, is absent from src/src/core/config.py; §6.4 of
the spec gives 8.0 s. -/
def KEY_WINDOW_SECONDS : ℚ := 8

/-- Modelled from the spec: `settings.KEY_OVERLAP_SECONDS` is absent from
src/src/core/config.py; §6.4 of the spec gives 4.0 s. -/
def KEY_OVERLAP_SECONDS : ℚ := 4

/-- Modelled from the spec: `settings.KEY_OUTLIER_MAX_DURATION` is absent
from src/src/core/config.py; §6.4 of the spec gives 0.15 s. -/
def KEY_OUTLIER_MAX_DURATION : ℚ := 3 / 20

/-- Modelled from the spec: `settings.KEY_OUTLIER_MAX_CONFIDENCE` is absent
from src/src/core/config.py; §6.4 of the spec gives 0.65. -/
def KEY_OUTLIER_MAX_CONFIDENCE : ℚ := 13 / 20

/-- The per-window body of the `detect_section_keys` loop: build the
histogram of `[ws, ws + window)`, skip the window when its sum is ≤ 0.1,
otherwise prepend the `SectionKey` found by `_find_best_key`. -/
noncomputable def sectionOfWindow (notes : List Note)
    (window_seconds song_end : ℚ) (ws : ℚ) (acc : List SectionKey) :
    List SectionKey :=
  let hist := windowHist notes ws (ws + window_seconds)
  if 1 / 10 < ∑ i, hist i then
    { start_time := ws
      end_time := min (ws + window_seconds) song_end
      key_name := (_NOTE_NAMES.getD ((_find_best_key hist).1.1 : ℕ) "")
        ++ " " ++ modeName (_find_best_key hist).1.2
      tonic := (_find_best_key hist).1.1
      mode := (_find_best_key hist).1.2
      correlation := (_find_best_key hist).2 } :: acc
  else acc

/-- `detect_section_keys`: sliding windows from the first note's start,
advancing by `window − overlap` (falling back to `window` when that step is
not positive) while before the last note's end; windows with histogram sum
≤ 0.1 are skipped.  The `while w_start < song_end` loop of the source visits
exactly the starts `song_start + k·step` for `k < ⌈(song_end −
song_start)/step⌉` when `step > 0` (for `step ≤ 0` the source loop would not
terminate; no caller produces that). -/
noncomputable def detect_section_keys (notes : List Note)
    (window_seconds overlap_seconds : ℚ) : List SectionKey :=
  match notes with
  | [] => []
  | n0 :: _ =>
    let song_start := n0.start_time
    let song_end := (notes.getLastD n0).end_time
    if song_end - song_start ≤ 0 then []
    else
      let step := if window_seconds - overlap_seconds ≤ 0 then window_seconds
                  else window_seconds - overlap_seconds
      let numW : ℕ := if 0 < step then ⌈(song_end - song_start) / step⌉₊ else 0
      ((List.range numW).map (fun k : ℕ => song_start + (k : ℚ) * step)).foldr
        (sectionOfWindow notes window_seconds song_end) []

/-- `_MAJOR_SCALE`: diatonic semitone offsets of the major scale. -/
def _MAJOR_SCALE : Finset (Fin 12) := {0, 2, 4, 5, 7, 9, 11}

/-- `_MINOR_SCALE`: diatonic semitone offsets of the natural minor scale. -/
def _MINOR_SCALE : Finset (Fin 12) := {0, 2, 3, 5, 7, 8, 10}

/-- `_build_extended_scale`: diatonic pitch classes of `(tonic, mode)` plus
their chromatic neighbours at ±1 semitone. -/
def _build_extended_scale (tonic : Fin 12) (m : Mode) : Finset (Fin 12) :=
  let base := match m with
    | Mode.major => _MAJOR_SCALE
    | Mode.minor => _MINOR_SCALE
  let diatonic := base.image (fun interval => tonic + interval)
  diatonic ∪ diatonic.image (fun pc => pc - 1) ∪ diatonic.image (fun pc => pc + 1)

/-- The best-correlated section covering a note (the inner loop of
`filter_key_outliers`, starting from `best_corr = -1.0`). -/
noncomputable def bestSectionFor (n : Note) (secs : List SectionKey) :
    Option SectionKey :=
  (secs.foldl
    (fun st sk =>
      if n.start_time < sk.end_time ∧ sk.start_time < n.end_time ∧
          st.2 < sk.correlation
      then (some sk, sk.correlation) else st)
    ((none : Option SectionKey), (-1 : ℝ))).1

/-- The note walk of `filter_key_outliers`: drop a note exactly when it has
a covering section and all three outlier conditions hold. -/
noncomputable def keyFilterGo (secs : List SectionKey) (maxDur maxConf : ℚ) :
    List Note → List Note
  | [] => []
  | n :: rest =>
    match bestSectionFor n secs with
    | none => n :: keyFilterGo secs maxDur maxConf rest
    | some sk =>
      if pcOf n.midi_number ∉ _build_extended_scale sk.tonic sk.mode ∧
          n.duration < maxDur ∧ n.confidence < maxConf
      then keyFilterGo secs maxDur maxConf rest
      else n :: keyFilterGo secs maxDur maxConf rest

/-- `filter_key_outliers`: detect sections, then drop triple-condition
outliers; with no notes or no sections, return the notes unchanged. -/
noncomputable def filter_key_outliers (notes : List Note)
    (window_seconds overlap_seconds maxDur maxConf : ℚ) :
    List Note × List SectionKey :=
  match notes with
  | [] => ([], [])
  | _ :: _ =>
    let secs := detect_section_keys notes window_seconds overlap_seconds
    if secs.isEmpty then (notes, [])
    else (keyFilterGo secs maxDur maxConf notes, secs)

/-! ### Key detection on a constant histogram (C3, C5) -/

theorem sumSq_const (c : ℚ) : sumSq (fun _ : Fin 12 => c) = 0 := by
  unfold sumSq fmean
  have h : (∑ _i : Fin 12, c) / 12 = c := by
    rw [Finset.sum_const]
    simp
  rw [h]
  simp

theorem pearson_const_left (c : ℚ) (y : Fin 12 → ℚ) :
    pearson (fun _ => c) y = none := by
  unfold pearson
  rw [if_pos (Or.inl (sumSq_const c))]

theorem foldl_bestCandStep_all_none (h : Fin 12 → ℚ) :
    ∀ (l : List (Fin 12 × Mode)) (st : (Fin 12 × Mode) × ℝ),
      (∀ c ∈ l, pearson h (rotatedProfile c.1 c.2) = none) →
      l.foldl (bestCandStep h) st = st := by
  intro l
  induction l with
  | nil => intro st _; rfl
  | cons c rest ih =>
    intro st hall
    have hc : pearson h (rotatedProfile c.1 c.2) = none :=
      hall c (List.mem_cons_self _ _)
    show List.foldl (bestCandStep h) (bestCandStep h st c) rest = st
    have hstep : bestCandStep h st c = st := by
      unfold bestCandStep
      rw [hc]
    rw [hstep]
    exact ih st (fun c2 h2 => hall c2 (List.mem_cons_of_mem _ h2))

theorem pyRound4R_neg_half : pyRound4R (-(1/2) : ℝ) = -(1/2) := by
  unfold pyRound4R
  rw [show (-(1/2) : ℝ) * 10000 = ((-5000 : ℤ) : ℝ) by norm_num]
  rw [round_intCast]
  norm_num

/-- C3: on a constant histogram (all 12 bins equal to 1, sum 12 > 0.1) every
one of the 24 candidates has NaN Pearson correlation and is skipped, so
`_find_best_key` keeps the `-2.0` sentinel and reports `(-2 + 1)/2 = -0.5`,
which is NOT in [0, 1] — contradicting the claim (and the function's own
docstring, which promises a value normalized to 0..1). -/
theorem find_best_key_constant_histogram :
    (1/10 : ℚ) < (∑ _i : Fin 12, (1 : ℚ)) ∧
    _find_best_key (fun _ => 1) = ((0, Mode.major), -(1/2)) ∧
    ((_find_best_key (fun _ => 1)).2 < 0) := by
  have heval : _find_best_key (fun _ => 1) = ((0, Mode.major), -(1/2)) := by
    unfold _find_best_key
    rw [foldl_bestCandStep_all_none _ candList _
      (fun c _ => pearson_const_left 1 _)]
    simp only
    rw [show ((-2 : ℝ) + 1) / 2 = -(1/2) by norm_num, pyRound4R_neg_half]
  refine ⟨?_, heval, ?_⟩
  · rw [Finset.sum_const]
    simp
    norm_num
  · rw [heval]
    norm_num

theorem sumSq_nonneg (x : Fin 12 → ℚ) : 0 ≤ sumSq x :=
  Finset.sum_nonneg (fun _i _ => sq_nonneg _)

theorem sumSq_eq_zero_iff (x : Fin 12 → ℚ) :
    sumSq x = 0 ↔ ∀ i, x i = fmean x := by
  unfold sumSq
  rw [Finset.sum_eq_zero_iff_of_nonneg (fun i _ => sq_nonneg _)]
  constructor
  · intro h i
    have := h i (Finset.mem_univ i)
    have h2 : x i - fmean x = 0 := by
      exact pow_eq_zero_iff (n := 2) (by norm_num) |>.mp this
    linarith
  · intro h i _
    rw [h i]
    ring

theorem cauchy_schwarz_sums (x y : Fin 12 → ℚ) :
    sumCross x y ^ 2 ≤ sumSq x * sumSq y := by
  unfold sumCross sumSq
  exact Finset.sum_mul_sq_le_sq_mul_sq Finset.univ
    (fun i => x i - fmean x) (fun i => y i - fmean y)

theorem pearson_bounds (x y : Fin 12 → ℚ) (r : ℝ)
    (h : pearson x y = some r) : -1 ≤ r ∧ r ≤ 1 := by
  unfold pearson at h
  split_ifs at h with hz
  push_neg at hz
  have hxx : (0 : ℚ) < sumSq x := lt_of_le_of_ne (sumSq_nonneg x) (Ne.symm hz.1)
  have hyy : (0 : ℚ) < sumSq y := lt_of_le_of_ne (sumSq_nonneg y) (Ne.symm hz.2)
  have hr : r = (sumCross x y : ℝ) / Real.sqrt ((sumSq x : ℝ) * (sumSq y : ℝ)) :=
    ((Option.some.injEq _ _).mp h.symm)
  have hprod : (0 : ℝ) < (sumSq x : ℝ) * (sumSq y : ℝ) := by
    have h1 : (0 : ℝ) < (sumSq x : ℝ) := by exact_mod_cast hxx
    have h2 : (0 : ℝ) < (sumSq y : ℝ) := by exact_mod_cast hyy
    positivity
  have hcs : ((sumCross x y : ℝ)) ^ 2 ≤ (sumSq x : ℝ) * (sumSq y : ℝ) := by
    have := cauchy_schwarz_sums x y
    have h2 : ((sumCross x y ^ 2 : ℚ) : ℝ) ≤ ((sumSq x * sumSq y : ℚ) : ℝ) := by
      exact_mod_cast this
    push_cast at h2
    exact h2
  have hsq : r ^ 2 ≤ 1 := by
    rw [hr, div_pow, Real.sq_sqrt (le_of_lt hprod)]
    rw [div_le_one hprod]
    exact hcs
  have habs : |r| ≤ 1 := (sq_le_one_iff_abs_le_one r).mp hsq
  exact abs_le.mp habs

/-- Invariant of the `_find_best_key` fold over a processed prefix `P`:
either nothing non-NaN has been seen and the state is the initial sentinel,
or the state is the first maximal non-NaN candidate seen so far. -/
def BestInv (h : Fin 12 → ℚ) (P : List (Fin 12 × Mode))
    (st : (Fin 12 × Mode) × ℝ) : Prop :=
  (st = ((0, Mode.major), -2) ∧
    ∀ c ∈ P, pearson h (rotatedProfile c.1 c.2) = none) ∨
  (∃ l₁ l₂, P = l₁ ++ st.1 :: l₂ ∧
    pearson h (rotatedProfile st.1.1 st.1.2) = some st.2 ∧
    (∀ c ∈ l₁, ∀ r, pearson h (rotatedProfile c.1 c.2) = some r → r < st.2) ∧
    (∀ c ∈ l₂, ∀ r, pearson h (rotatedProfile c.1 c.2) = some r → r ≤ st.2))

theorem bestCandStep_inv (h : Fin 12 → ℚ) :
    ∀ (l P : List (Fin 12 × Mode)) (st : (Fin 12 × Mode) × ℝ),
      BestInv h P st →
      BestInv h (P ++ l) (l.foldl (bestCandStep h) st) := by
  intro l
  induction l with
  | nil => intro P st hinv; simpa using hinv
  | cons c rest ih =>
    intro P st hinv
    have hstep : BestInv h (P ++ [c]) (bestCandStep h st c) := by
      unfold bestCandStep
      cases hp : pearson h (rotatedProfile c.1 c.2) with
      | none =>
        rcases hinv with ⟨hst, hall⟩ | ⟨l₁, l₂, hP, hf, h1, h2⟩
        · left
          refine ⟨hst, ?_⟩
          intro c2 hc2
          rcases List.mem_append.mp hc2 with hc2 | hc2
          · exact hall c2 hc2
          · rw [List.mem_singleton.mp hc2]; exact hp
        · right
          refine ⟨l₁, l₂ ++ [c], by rw [hP]; simp, hf, h1, ?_⟩
          intro c2 hc2 r hr
          rcases List.mem_append.mp hc2 with hc2 | hc2
          · exact h2 c2 hc2 r hr
          · rw [List.mem_singleton.mp hc2] at hr
            rw [hp] at hr
            cases hr
      | some r =>
        have hbd := pearson_bounds h (rotatedProfile c.1 c.2) r hp
        show BestInv h (P ++ [c]) (if st.2 < r then (c, r) else st)
        by_cases hlt : st.2 < r
        · rw [if_pos hlt]
          right
          refine ⟨P, [], by simp, hp, ?_, by simp⟩
          intro c2 hc2 s hs
          rcases hinv with ⟨hst, hall⟩ | ⟨l₁, l₂, hP, hf, h1, h2⟩
          · rw [hall c2 hc2] at hs; cases hs
          · rw [hP] at hc2
            rcases List.mem_append.mp hc2 with hc2 | hc2
            · exact lt_trans (h1 c2 hc2 s hs) hlt
            · rcases List.mem_cons.mp hc2 with hc2 | hc2
              · subst hc2
                rw [hf] at hs
                cases hs
                exact hlt
              · exact lt_of_le_of_lt (h2 c2 hc2 s hs) hlt
        · rw [if_neg hlt]
          push_neg at hlt
          rcases hinv with ⟨hst, hall⟩ | ⟨l₁, l₂, hP, hf, h1, h2⟩
          · exfalso
            rw [hst] at hlt
            simp only at hlt
            linarith [hbd.1]
          · right
            refine ⟨l₁, l₂ ++ [c], by rw [hP]; simp, hf, h1, ?_⟩
            intro c2 hc2 s hs
            rcases List.mem_append.mp hc2 with hc2 | hc2
            · exact h2 c2 hc2 s hs
            · rw [List.mem_singleton.mp hc2] at hs
              rw [hp] at hs
              cases hs
              exact hlt
    have := ih (P ++ [c]) (bestCandStep h st c) hstep
    simpa using this

theorem hist_nonconstant_sumSq {x : Fin 12 → ℚ} (hne : ∃ i j, x i ≠ x j) :
    sumSq x ≠ 0 := by
  intro h0
  obtain ⟨i, j, hij⟩ := hne
  have hall := (sumSq_eq_zero_iff x).mp h0
  rw [hall i, hall j] at hij
  exact hij rfl

theorem profile_nonconstant (t : Fin 12) (m : Mode) :
    sumSq (rotatedProfile t m) ≠ 0 := by
  apply hist_nonconstant_sumSq
  refine ⟨t, t + 1, ?_⟩
  unfold rotatedProfile
  rw [sub_self, add_sub_cancel_left]
  cases m <;> norm_num [modeProfile, MAJOR_PROFILE, MINOR_PROFILE]

theorem pearson_profile_some {h : Fin 12 → ℚ} (hne : ∃ i j, h i ≠ h j)
    (t : Fin 12) (m : Mode) :
    ∃ r, pearson h (rotatedProfile t m) = some r := by
  unfold pearson
  rw [if_neg (by
    push_neg
    exact ⟨hist_nonconstant_sumSq hne, profile_nonconstant t m⟩)]
  exact ⟨_, rfl⟩

/-- C5 (amended): for every non-constant 12-bin histogram (equivalently: one
where some candidate has non-NaN Pearson correlation; on a constant
histogram all 24 candidates are NaN and the counterexample below applies),
`_find_best_key` scans the candidates in order tonic 0..11 with major before
minor, skips NaN correlations, returns a candidate whose correlation `r` is
maximal among all candidates, is strictly greater than every candidate
before it (first-encountered tie-break), and reports `(r + 1)/2` rounded to
four decimals. -/
theorem find_best_key_spec (h : Fin 12 → ℚ) (hne : ∃ i j, h i ≠ h j) :
    ∃ r : ℝ, ∃ l₁ l₂ : List (Fin 12 × Mode),
      pearson h (rotatedProfile (_find_best_key h).1.1 (_find_best_key h).1.2) =
        some r ∧
      (_find_best_key h).2 = pyRound4R ((r + 1) / 2) ∧
      candList = l₁ ++ (_find_best_key h).1 :: l₂ ∧
      (∀ c ∈ l₁, ∀ s, pearson h (rotatedProfile c.1 c.2) = some s → s < r) ∧
      (∀ c ∈ candList, ∀ s, pearson h (rotatedProfile c.1 c.2) = some s → s ≤ r) := by
  have hinv0 : BestInv h [] ((0, Mode.major), -2) := Or.inl ⟨rfl, by simp⟩
  have hinv := bestCandStep_inv h candList [] _ hinv0
  simp only [List.nil_append] at hinv
  set best := candList.foldl (bestCandStep h) ((0, Mode.major), -2) with hbest
  have hfb : _find_best_key h = (best.1, pyRound4R ((best.2 + 1) / 2)) := rfl
  rcases hinv with ⟨_, hall⟩ | ⟨l₁, l₂, hP, hf, h1, h2⟩
  · exfalso
    obtain ⟨r, hr⟩ := pearson_profile_some hne 0 Mode.major
    have hmem : ((0 : Fin 12), Mode.major) ∈ candList := by decide
    rw [hall _ hmem] at hr
    cases hr
  · refine ⟨best.2, l₁, l₂, ?_, ?_, ?_, ?_, ?_⟩
    · rw [hfb]; exact hf
    · rw [hfb]
    · rw [hfb]; exact hP
    · intro c hc s hs
      exact h1 c hc s hs
    · intro c hc s hs
      rw [hP] at hc
      rcases List.mem_append.mp hc with hc | hc
      · exact le_of_lt (h1 c hc s hs)
      · rcases List.mem_cons.mp hc with hc | hc
        · subst hc
          rw [hf] at hs
          cases hs
          rfl
        · exact h2 c hc s hs

/-- Witness for C5 (amended) at the indicator histogram of pitch class 0. -/
theorem find_best_key_spec_witness :
    ∃ r : ℝ, ∃ l₁ l₂ : List (Fin 12 × Mode),
      pearson (fun i => if i = 0 then 1 else 0)
        (rotatedProfile (_find_best_key (fun i => if i = 0 then 1 else 0)).1.1
          (_find_best_key (fun i => if i = 0 then 1 else 0)).1.2) = some r ∧
      (_find_best_key (fun i => if i = 0 then 1 else 0)).2 =
        pyRound4R ((r + 1) / 2) ∧
      candList = l₁ ++ (_find_best_key (fun i => if i = 0 then 1 else 0)).1 :: l₂ ∧
      (∀ c ∈ l₁, ∀ s,
        pearson (fun i => if i = 0 then 1 else 0) (rotatedProfile c.1 c.2) =
          some s → s < r) ∧
      (∀ c ∈ candList, ∀ s,
        pearson (fun i => if i = 0 then 1 else 0) (rotatedProfile c.1 c.2) =
          some s → s ≤ r) :=
  find_best_key_spec (fun i => if i = 0 then 1 else 0)
    ⟨0, 1, by norm_num⟩

/-- C5 counterexample: on the constant histogram (all bins 2) every
candidate — including the returned one, tonic 0 major — has NaN correlation,
so the returned candidate is not a maximum over the non-NaN candidates and
the reported correlation −0.5 is not `(r+1)/2` for any winner correlation. -/
theorem find_best_key_allnan_counterexample :
    _find_best_key (fun _ => 2) = ((0, Mode.major), -(1/2)) ∧
    pearson (fun _ => 2)
      (rotatedProfile (_find_best_key (fun _ => 2)).1.1
        (_find_best_key (fun _ => 2)).1.2) = none := by
  have heval : _find_best_key (fun _ => 2) = ((0, Mode.major), -(1/2)) := by
    unfold _find_best_key
    rw [foldl_bestCandStep_all_none _ candList _
      (fun c _ => pearson_const_left 2 _)]
    simp only
    rw [show ((-2 : ℝ) + 1) / 2 = -(1/2) by norm_num, pyRound4R_neg_half]
  exact ⟨heval, by rw [heval]; exact pearson_const_left 2 _⟩

/-! ### Key-outlier filter (C6) -/

theorem pyRound4R_mono {x y : ℝ} (h : x ≤ y) : pyRound4R x ≤ pyRound4R y := by
  unfold pyRound4R
  have h1 : round (x * 10000) ≤ round (y * 10000) := by
    rw [round_eq, round_eq]
    exact Int.floor_mono (by linarith)
  have h2 : ((round (x * 10000) : ℤ) : ℝ) ≤ ((round (y * 10000) : ℤ) : ℝ) := by
    exact_mod_cast h1
  linarith

theorem foldl_bestCandStep_snd_ge (h : Fin 12 → ℚ) :
    ∀ (l : List (Fin 12 × Mode)) (st : (Fin 12 × Mode) × ℝ),
      st.2 ≤ (l.foldl (bestCandStep h) st).2 := by
  intro l
  induction l with
  | nil => intro st; exact le_refl _
  | cons c rest ih =>
    intro st
    refine le_trans ?_ (ih (bestCandStep h st c))
    unfold bestCandStep
    cases pearson h (rotatedProfile c.1 c.2) with
    | none => exact le_refl _
    | some r =>
      show st.2 ≤ (if st.2 < r then (c, r) else st).2
      by_cases hlt : st.2 < r
      · rw [if_pos hlt]; exact le_of_lt hlt
      · rw [if_neg hlt]

theorem find_best_key_corr_lb (h : Fin 12 → ℚ) :
    (-1 : ℝ) < (_find_best_key h).2 := by
  have hge : (-2 : ℝ) ≤ (candList.foldl (bestCandStep h) ((0, Mode.major), -2)).2 :=
    foldl_bestCandStep_snd_ge h candList ((0, Mode.major), -2)
  have h1 : pyRound4R (-(1/2)) ≤ (_find_best_key h).2 := by
    unfold _find_best_key
    simp only
    apply pyRound4R_mono
    linarith
  rw [pyRound4R_neg_half] at h1
  linarith

theorem sectionOfWindow_foldr_corr_lb (notes : List Note) (w se : ℚ) :
    ∀ (L : List ℚ) (sk : SectionKey),
      sk ∈ L.foldr (sectionOfWindow notes w se) [] →
      (-1 : ℝ) < sk.correlation := by
  intro L
  induction L with
  | nil => intro sk hsk; cases hsk
  | cons ws tl ih =>
    intro sk hsk
    simp only [List.foldr_cons, sectionOfWindow] at hsk
    split_ifs at hsk with hsum
    · rcases List.mem_cons.mp hsk with hsk | hsk
      · subst hsk
        exact find_best_key_corr_lb _
      · exact ih sk hsk
    · exact ih sk hsk

theorem detect_sections_corr_lb (notes : List Note) (w o : ℚ) :
    ∀ sk ∈ detect_section_keys notes w o, (-1 : ℝ) < sk.correlation := by
  unfold detect_section_keys
  match notes with
  | [] => intro sk hsk; cases hsk
  | n0 :: rest =>
    simp only
    intro sk hsk
    split_ifs at hsk
    all_goals first
      | cases hsk
      | exact sectionOfWindow_foldr_corr_lb _ _ _ _ sk hsk

/-- Invariant of the best-section fold of `filter_key_outliers`. -/
def BestSecInv (n : Note) (P : List SectionKey)
    (st : Option SectionKey × ℝ) : Prop :=
  (st.1 = none ∧ st.2 = -1 ∧
    ∀ sk ∈ P, ¬(n.start_time < sk.end_time ∧ sk.start_time < n.end_time)) ∨
  (∃ sk, st.1 = some sk ∧ st.2 = sk.correlation ∧ sk ∈ P ∧
    (n.start_time < sk.end_time ∧ sk.start_time < n.end_time) ∧
    ∀ sk2 ∈ P, (n.start_time < sk2.end_time ∧ sk2.start_time < n.end_time) →
      sk2.correlation ≤ sk.correlation)

theorem bestSecFold_inv (n : Note) :
    ∀ (l P : List SectionKey) (st : Option SectionKey × ℝ),
      (∀ sk ∈ l, (-1 : ℝ) < sk.correlation) →
      BestSecInv n P st →
      BestSecInv n (P ++ l)
        (l.foldl (fun st sk =>
          if n.start_time < sk.end_time ∧ sk.start_time < n.end_time ∧
              st.2 < sk.correlation
          then (some sk, sk.correlation) else st) st) := by
  intro l
  induction l with
  | nil => intro P st _ hinv; simpa using hinv
  | cons sk tl ih =>
    intro P st hcorr hinv
    have hstep : BestSecInv n (P ++ [sk])
        (if n.start_time < sk.end_time ∧ sk.start_time < n.end_time ∧
            st.2 < sk.correlation
         then (some sk, sk.correlation) else st) := by
      by_cases hc : n.start_time < sk.end_time ∧ sk.start_time < n.end_time ∧
          st.2 < sk.correlation
      · rw [if_pos hc]
        right
        refine ⟨sk, rfl, rfl, by simp, ⟨hc.1, hc.2.1⟩, ?_⟩
        intro sk2 hsk2 hov2
        rcases List.mem_append.mp hsk2 with hsk2 | hsk2
        · rcases hinv with ⟨_, hst2, hnone⟩ | ⟨b, _, hb2, _, _, hmax⟩
          · exact absurd hov2 (hnone sk2 hsk2)
          · calc sk2.correlation ≤ b.correlation := hmax sk2 hsk2 hov2
              _ = st.2 := hb2.symm
              _ ≤ sk.correlation := le_of_lt hc.2.2
        · rw [List.mem_singleton.mp hsk2]
      · rw [if_neg hc]
        push_neg at hc
        rcases hinv with ⟨h1, h2, h3⟩ | ⟨b, hb1, hb2, hb3, hb4, hmax⟩
        · left
          refine ⟨h1, h2, ?_⟩
          intro sk2 hsk2
          rcases List.mem_append.mp hsk2 with hsk2 | hsk2
          · exact h3 sk2 hsk2
          · rw [List.mem_singleton.mp hsk2]
            intro ⟨ho1, ho2⟩
            have := hc ho1 ho2
            rw [h2] at this
            exact absurd (hcorr sk (List.mem_cons_self _ _))
              (not_lt.mpr this)
        · right
          refine ⟨b, hb1, hb2, List.mem_append_left _ hb3, hb4, ?_⟩
          intro sk2 hsk2 hov2
          rcases List.mem_append.mp hsk2 with hsk2 | hsk2
          · exact hmax sk2 hsk2 hov2
          · rw [List.mem_singleton.mp hsk2]
            rw [List.mem_singleton.mp hsk2] at hov2
            have := hc hov2.1 hov2.2
            rw [hb2] at this
            exact this
    have := ih (P ++ [sk]) _ (fun sk2 h2 => hcorr sk2 (List.mem_cons_of_mem _ h2))
      hstep
    simpa using this

theorem bestSectionFor_spec (n : Note) (secs : List SectionKey)
    (hcorr : ∀ sk ∈ secs, (-1 : ℝ) < sk.correlation) :
    (bestSectionFor n secs = none →
      ∀ sk ∈ secs, ¬(n.start_time < sk.end_time ∧ sk.start_time < n.end_time)) ∧
    (∀ sk, bestSectionFor n secs = some sk → sk ∈ secs ∧
      (n.start_time < sk.end_time ∧ sk.start_time < n.end_time) ∧
      ∀ sk2 ∈ secs, (n.start_time < sk2.end_time ∧ sk2.start_time < n.end_time) →
        sk2.correlation ≤ sk.correlation) := by
  have hinv := bestSecFold_inv n secs [] ((none : Option SectionKey), (-1 : ℝ))
    hcorr (Or.inl ⟨rfl, rfl, by simp⟩)
  simp only [List.nil_append] at hinv
  unfold bestSectionFor
  rcases hinv with ⟨h1, _, h3⟩ | ⟨b, hb1, _, hb3, hb4, hmax⟩
  · constructor
    · intro _; exact h3
    · intro sk hsk
      rw [h1] at hsk
      cases hsk
  · constructor
    · intro hnone
      rw [hb1] at hnone
      cases hnone
    · intro sk hsk
      rw [hb1] at hsk
      cases hsk
      exact ⟨hb3, hb4, hmax⟩

/-- The keep-condition of the outlier filter, as a predicate on one note. -/
noncomputable def keyKeep (secs : List SectionKey) (maxDur maxConf : ℚ)
    (n : Note) : Prop :=
  match bestSectionFor n secs with
  | none => True
  | some sk => ¬(pcOf n.midi_number ∉ _build_extended_scale sk.tonic sk.mode ∧
      n.duration < maxDur ∧ n.confidence < maxConf)

theorem keyFilterGo_mem (secs : List SectionKey) (maxDur maxConf : ℚ) :
    ∀ (l : List Note) (n : Note),
      n ∈ keyFilterGo secs maxDur maxConf l ↔
        n ∈ l ∧ keyKeep secs maxDur maxConf n := by
  intro l
  induction l with
  | nil =>
    intro n
    simp [keyFilterGo]
  | cons m rest ih =>
    intro n
    show n ∈ (match bestSectionFor m secs with
      | none => m :: keyFilterGo secs maxDur maxConf rest
      | some sk => if _ then keyFilterGo secs maxDur maxConf rest
                   else m :: keyFilterGo secs maxDur maxConf rest) ↔ _
    cases hb : bestSectionFor m secs with
    | none =>
      simp only [List.mem_cons, ih]
      constructor
      · rintro (rfl | ⟨hmem, hkeep⟩)
        · exact ⟨Or.inl rfl, by unfold keyKeep; rw [hb]; trivial⟩
        · exact ⟨Or.inr hmem, hkeep⟩
      · rintro ⟨rfl | hmem, hkeep⟩
        · exact Or.inl rfl
        · exact Or.inr ⟨hmem, hkeep⟩
    | some sk =>
      show (n ∈ if pcOf m.midi_number ∉ _build_extended_scale sk.tonic sk.mode ∧
            m.duration < maxDur ∧ m.confidence < maxConf
          then keyFilterGo secs maxDur maxConf rest
          else m :: keyFilterGo secs maxDur maxConf rest) ↔
        n ∈ m :: rest ∧ keyKeep secs maxDur maxConf n
      by_cases hc : pcOf m.midi_number ∉ _build_extended_scale sk.tonic sk.mode ∧
          m.duration < maxDur ∧ m.confidence < maxConf
      · rw [if_pos hc]
        rw [ih]
        simp only [List.mem_cons]
        constructor
        · rintro ⟨hmem, hkeep⟩
          exact ⟨Or.inr hmem, hkeep⟩
        · rintro ⟨rfl | hmem, hkeep⟩
          · exfalso
            unfold keyKeep at hkeep
            rw [hb] at hkeep
            exact hkeep hc
          · exact ⟨hmem, hkeep⟩
      · rw [if_neg hc]
        simp only [List.mem_cons, ih]
        constructor
        · rintro (rfl | ⟨hmem, hkeep⟩)
          · exact ⟨Or.inl rfl, by unfold keyKeep; rw [hb]; exact hc⟩
          · exact ⟨Or.inr hmem, hkeep⟩
        · rintro ⟨rfl | hmem, hkeep⟩
          · exact Or.inl rfl
          · exact Or.inr ⟨hmem, hkeep⟩

/-- C6: in the key-outlier filter, a note overlapped by no detected window is
always kept; a note overlapped by some window has a best-correlated covering
window `sk` (maximal correlation among all covering windows), and it is
removed if and only if all three conditions hold: its pitch class is outside
the extended (diatonic ± 1) set of `sk`, its duration is < 0.15 s, and its
confidence is < 0.65. -/
theorem filter_key_outliers_rule (notes : List Note) (n : Note)
    (secs : List SectionKey) (hn : n ∈ notes)
    (hsecs : secs = detect_section_keys notes KEY_WINDOW_SECONDS KEY_OVERLAP_SECONDS) :
    ((∀ sk ∈ secs, ¬(n.start_time < sk.end_time ∧ sk.start_time < n.end_time)) →
      n ∈ (filter_key_outliers notes KEY_WINDOW_SECONDS KEY_OVERLAP_SECONDS
        KEY_OUTLIER_MAX_DURATION KEY_OUTLIER_MAX_CONFIDENCE).1) ∧
    ((∃ sk ∈ secs, n.start_time < sk.end_time ∧ sk.start_time < n.end_time) →
      ∃ sk, bestSectionFor n secs = some sk ∧ sk ∈ secs ∧
        (n.start_time < sk.end_time ∧ sk.start_time < n.end_time) ∧
        (∀ sk2 ∈ secs,
          (n.start_time < sk2.end_time ∧ sk2.start_time < n.end_time) →
          sk2.correlation ≤ sk.correlation) ∧
        (n ∉ (filter_key_outliers notes KEY_WINDOW_SECONDS KEY_OVERLAP_SECONDS
            KEY_OUTLIER_MAX_DURATION KEY_OUTLIER_MAX_CONFIDENCE).1 ↔
          (pcOf n.midi_number ∉ _build_extended_scale sk.tonic sk.mode ∧
            n.duration < KEY_OUTLIER_MAX_DURATION ∧
            n.confidence < KEY_OUTLIER_MAX_CONFIDENCE))) := by
  have hcorr : ∀ sk ∈ secs, (-1 : ℝ) < sk.correlation := by
    rw [hsecs]
    exact detect_sections_corr_lb notes KEY_WINDOW_SECONDS KEY_OVERLAP_SECONDS
  rcases notes with _ | ⟨n0, rest⟩
  · cases hn
  have hres : (filter_key_outliers (n0 :: rest) KEY_WINDOW_SECONDS
      KEY_OVERLAP_SECONDS KEY_OUTLIER_MAX_DURATION KEY_OUTLIER_MAX_CONFIDENCE).1 =
      if secs.isEmpty then n0 :: rest
      else keyFilterGo secs KEY_OUTLIER_MAX_DURATION KEY_OUTLIER_MAX_CONFIDENCE
        (n0 :: rest) := by
    show (if (detect_section_keys (n0 :: rest) KEY_WINDOW_SECONDS
        KEY_OVERLAP_SECONDS).isEmpty
      then ((n0 :: rest : List Note), ([] : List SectionKey))
      else (keyFilterGo (detect_section_keys (n0 :: rest) KEY_WINDOW_SECONDS
          KEY_OVERLAP_SECONDS) KEY_OUTLIER_MAX_DURATION
          KEY_OUTLIER_MAX_CONFIDENCE (n0 :: rest),
        detect_section_keys (n0 :: rest) KEY_WINDOW_SECONDS
          KEY_OVERLAP_SECONDS)).1 = _
    rw [apply_ite Prod.fst, ← hsecs]
  by_cases hempty : secs.isEmpty
  · rw [hres, if_pos hempty]
    have hnil : secs = [] := List.isEmpty_iff.mp hempty
    constructor
    · intro _; exact hn
    · intro ⟨sk, hsk, _⟩
      rw [hnil] at hsk
      cases hsk
  · rw [hres, if_neg hempty]
    have spec := bestSectionFor_spec n secs hcorr
    constructor
    · intro hno
      cases hb : bestSectionFor n secs with
      | none =>
        refine (keyFilterGo_mem secs _ _ (n0 :: rest) n).mpr ⟨hn, ?_⟩
        unfold keyKeep
        rw [hb]
        trivial
      | some sk =>
        have := (spec.2 sk hb).2.1
        exact absurd this (hno sk (spec.2 sk hb).1)
    · intro ⟨sk0, hsk0, hov0⟩
      cases hb : bestSectionFor n secs with
      | none =>
        exact absurd hov0 (spec.1 hb sk0 hsk0)
      | some sk =>
        refine ⟨sk, rfl, (spec.2 sk hb).1, (spec.2 sk hb).2.1,
          (spec.2 sk hb).2.2, ?_⟩
        constructor
        · intro hnot
          have hnk : ¬ keyKeep secs KEY_OUTLIER_MAX_DURATION
              KEY_OUTLIER_MAX_CONFIDENCE n := fun hk =>
            hnot ((keyFilterGo_mem secs _ _ (n0 :: rest) n).mpr ⟨hn, hk⟩)
          unfold keyKeep at hnk
          rw [hb] at hnk
          exact not_not.mp hnk
        · intro hcond hmem
          have hk := ((keyFilterGo_mem secs _ _ (n0 :: rest) n).mp hmem).2
          unfold keyKeep at hk
          rw [hb] at hk
          exact hk hcond

def noteW : Note := ⟨60, "C4", 0, 1, 440, 9/10, 119, none⟩

/-- Witness for C6 at a concrete one-note list: both hypotheses hold there
and the full conclusion of the outlier rule follows. -/
theorem filter_key_outliers_rule_witness :
    noteW ∈ [noteW] ∧
    (((∀ sk ∈ detect_section_keys [noteW] KEY_WINDOW_SECONDS KEY_OVERLAP_SECONDS,
        ¬(noteW.start_time < sk.end_time ∧ sk.start_time < noteW.end_time)) →
      noteW ∈ (filter_key_outliers [noteW] KEY_WINDOW_SECONDS KEY_OVERLAP_SECONDS
        KEY_OUTLIER_MAX_DURATION KEY_OUTLIER_MAX_CONFIDENCE).1) ∧
    ((∃ sk ∈ detect_section_keys [noteW] KEY_WINDOW_SECONDS KEY_OVERLAP_SECONDS,
        noteW.start_time < sk.end_time ∧ sk.start_time < noteW.end_time) →
      ∃ sk, bestSectionFor noteW (detect_section_keys [noteW] KEY_WINDOW_SECONDS
          KEY_OVERLAP_SECONDS) = some sk ∧
        sk ∈ detect_section_keys [noteW] KEY_WINDOW_SECONDS KEY_OVERLAP_SECONDS ∧
        (noteW.start_time < sk.end_time ∧ sk.start_time < noteW.end_time) ∧
        (∀ sk2 ∈ detect_section_keys [noteW] KEY_WINDOW_SECONDS KEY_OVERLAP_SECONDS,
          (noteW.start_time < sk2.end_time ∧ sk2.start_time < noteW.end_time) →
          sk2.correlation ≤ sk.correlation) ∧
        (noteW ∉ (filter_key_outliers [noteW] KEY_WINDOW_SECONDS KEY_OVERLAP_SECONDS
            KEY_OUTLIER_MAX_DURATION KEY_OUTLIER_MAX_CONFIDENCE).1 ↔
          (pcOf noteW.midi_number ∉ _build_extended_scale sk.tonic sk.mode ∧
            noteW.duration < KEY_OUTLIER_MAX_DURATION ∧
            noteW.confidence < KEY_OUTLIER_MAX_CONFIDENCE)))) :=
  ⟨List.mem_singleton.mpr rfl,
   filter_key_outliers_rule [noteW] noteW
     (detect_section_keys [noteW] KEY_WINDOW_SECONDS KEY_OVERLAP_SECONDS)
     (List.mem_singleton.mpr rfl) rfl⟩

/-! ### Full-pipeline gap counterexample (C2) -/

def noteC : Note := ⟨60, "C4", 0, 3/50, 440, 9/10, 119, none⟩
def noteD : Note := ⟨60, "C4", 3/20, 3/50, 440, 9/10, 119, none⟩

theorem c2_merge :
    merge_same_pitch_notes [noteC, noteD] (2/25) = [noteC, noteD] := by
  norm_num [merge_same_pitch_notes, mergeGo, Note.end_time, noteC, noteD]

theorem c2_refine :
    refine_onsets [noteC, noteD] [0,0,0,0,0,0,0,0,0,0,0,0,1,1,1,1] 0 5 (1/100) =
      [mkNote 60 "C4" 0 (3/50) 440 (9/10) none none,
       mkNote 60 "C4" (3/25) (9/100) 440 (9/10) none none] := by
  have htake1 : ∀ (a : ℚ) (l : List ℚ), List.take (Int.toNat 1) (a::l) = [a] :=
    fun _ _ => rfl
  have htake6 : ∀ (a b c d e f : ℚ) (l : List ℚ),
      List.take (Int.toNat 6) (a::b::c::d::e::f::l) = [a,b,c,d,e,f] :=
    fun _ _ _ _ _ _ _ => rfl
  have hdrop10 : ∀ (a b c d e f g h i j : ℚ) (l : List ℚ),
      List.drop (Int.toNat 10) (a::b::c::d::e::f::g::h::i::j::l) = l :=
    fun _ _ _ _ _ _ _ _ _ _ _ => rfl
  norm_num [refine_onsets, refineGo, energyDiff, argmaxIdx, argmaxAux, pyRound,
    round_eq, Note.end_time, noteC, noteD, List.zipWith, htake1, htake6,
    hdrop10, max_def]
  intro h
  simp at h

theorem c2_short :
    filter_short_notes [mkNote 60 "C4" 0 (3/50) 440 (9/10) none none,
       mkNote 60 "C4" (3/25) (9/100) 440 (9/10) none none] (3/50) =
      [mkNote 60 "C4" 0 (3/50) 440 (9/10) none none,
       mkNote 60 "C4" (3/25) (9/100) 440 (9/10) none none] := by
  norm_num [filter_short_notes, List.filter]

theorem c2_secs_ne :
    ¬ (detect_section_keys [mkNote 60 "C4" 0 (3/50) 440 (9/10) none none,
        mkNote 60 "C4" (3/25) (9/100) 440 (9/10) none none]
        KEY_WINDOW_SECONDS KEY_OVERLAP_SECONDS).isEmpty = true := by
  have hceil : ⌈(21 : ℚ)/400⌉₊ = 1 := by
    rw [Nat.ceil_eq_iff (by norm_num)]
    norm_num
  have hpc : pcOf (60 : ℤ) = (0 : Fin 12) := rfl
  norm_num [detect_section_keys, sectionOfWindow, windowHist, Note.end_time,
    KEY_WINDOW_SECONDS, KEY_OVERLAP_SECONDS, List.getLastD, hceil,
    List.range_succ, Fin.sum_univ_succ, Function.update_apply, hpc,
    List.foldl, min_def, max_def]

theorem keyFilterGo_keep_all (secs : List SectionKey) (d c : ℚ) :
    ∀ l : List Note, (∀ x ∈ l, keyKeep secs d c x) → keyFilterGo secs d c l = l := by
  intro l
  induction l with
  | nil => intro _; rfl
  | cons m rest ih =>
    intro hall
    have hm := hall m (List.mem_cons_self _ _)
    unfold keyKeep at hm
    cases hb : bestSectionFor m secs with
    | none =>
      simp only [keyFilterGo]
      rw [hb]
      show m :: keyFilterGo secs d c rest = m :: rest
      rw [ih (fun x hx => hall x (List.mem_cons_of_mem _ hx))]
    | some sk =>
      rw [hb] at hm
      have hm2 : ¬(pcOf m.midi_number ∉ _build_extended_scale sk.tonic sk.mode ∧
          m.duration < d ∧ m.confidence < c) := hm
      simp only [keyFilterGo]
      rw [hb]
      show (if pcOf m.midi_number ∉ _build_extended_scale sk.tonic sk.mode ∧
          m.duration < d ∧ m.confidence < c
        then keyFilterGo secs d c rest
        else m :: keyFilterGo secs d c rest) = m :: rest
      rw [if_neg hm2, ih (fun x hx => hall x (List.mem_cons_of_mem _ hx))]

/-- The full post-segmentation pipeline of audio_worker.py applied to
`noteC`, `noteD` with the energy spike at frame 12: merge (max gap 0.08),
onset refinement (lookback 5), short-note filter (0.06), key-outlier filter. -/
noncomputable def c2Pipeline : List Note :=
  (filter_key_outliers
    (filter_short_notes
      (refine_onsets (merge_same_pitch_notes [noteC, noteD] (2/25))
        [0,0,0,0,0,0,0,0,0,0,0,0,1,1,1,1] 0 5 (1/100))
      (3/50))
    KEY_WINDOW_SECONDS KEY_OVERLAP_SECONDS KEY_OUTLIER_MAX_DURATION
    KEY_OUTLIER_MAX_CONFIDENCE).1

theorem c2Pipeline_eval :
    c2Pipeline = [mkNote 60 "C4" 0 (3/50) 440 (9/10) none none,
      mkNote 60 "C4" (3/25) (9/100) 440 (9/10) none none] := by
  have hkeep : ∀ x ∈ [mkNote 60 "C4" 0 (3/50) 440 (9/10) none none,
      mkNote 60 "C4" (3/25) (9/100) 440 (9/10) none none],
      keyKeep (detect_section_keys
        [mkNote 60 "C4" 0 (3/50) 440 (9/10) none none,
         mkNote 60 "C4" (3/25) (9/100) 440 (9/10) none none]
        KEY_WINDOW_SECONDS KEY_OVERLAP_SECONDS)
        KEY_OUTLIER_MAX_DURATION KEY_OUTLIER_MAX_CONFIDENCE x := by
    intro x hx
    unfold keyKeep
    cases hb : bestSectionFor x (detect_section_keys
        [mkNote 60 "C4" 0 (3/50) 440 (9/10) none none,
         mkNote 60 "C4" (3/25) (9/100) 440 (9/10) none none]
        KEY_WINDOW_SECONDS KEY_OVERLAP_SECONDS) with
    | none => trivial
    | some sk =>
      intro hcond
      obtain ⟨_, _, hconf⟩ := hcond
      have hxc : x.confidence = 9/10 := by
        rcases List.mem_cons.mp hx with rfl | hx2
        · exact mkNote_confidence _ _ _ _ _ _ _ _
        · rcases List.mem_cons.mp hx2 with rfl | hx3
          · exact mkNote_confidence _ _ _ _ _ _ _ _
          · cases hx3
      rw [hxc] at hconf
      norm_num [KEY_OUTLIER_MAX_CONFIDENCE] at hconf
  unfold c2Pipeline
  rw [c2_merge, c2_refine, c2_short]
  show (if (detect_section_keys
      [mkNote 60 "C4" 0 (3/50) 440 (9/10) none none,
       mkNote 60 "C4" (3/25) (9/100) 440 (9/10) none none]
      KEY_WINDOW_SECONDS KEY_OVERLAP_SECONDS).isEmpty
    then (([mkNote 60 "C4" 0 (3/50) 440 (9/10) none none,
        mkNote 60 "C4" (3/25) (9/100) 440 (9/10) none none] : List Note),
      ([] : List SectionKey))
    else (keyFilterGo (detect_section_keys
        [mkNote 60 "C4" 0 (3/50) 440 (9/10) none none,
         mkNote 60 "C4" (3/25) (9/100) 440 (9/10) none none]
        KEY_WINDOW_SECONDS KEY_OVERLAP_SECONDS)
        KEY_OUTLIER_MAX_DURATION KEY_OUTLIER_MAX_CONFIDENCE
        [mkNote 60 "C4" 0 (3/50) 440 (9/10) none none,
         mkNote 60 "C4" (3/25) (9/100) 440 (9/10) none none],
      detect_section_keys
        [mkNote 60 "C4" 0 (3/50) 440 (9/10) none none,
         mkNote 60 "C4" (3/25) (9/100) 440 (9/10) none none]
        KEY_WINDOW_SECONDS KEY_OVERLAP_SECONDS)).1 = _
  rw [apply_ite Prod.fst, if_neg c2_secs_ne]
  exact keyFilterGo_keep_all _ _ _ _ hkeep

/-- C2 counterexample: the full pipeline (merge with max gap 0.08, onset
refinement, short-note filter at 0.06, key-outlier filter) applied to two
midi-60 notes of duration 0.06 starting at 0 and 0.15 with an energy-rise at
frame 12 outputs two consecutive midi-60 notes whose gap is 0.06 — positive
but not greater than 0.08, contradicting the claimed invariant. -/
theorem pipeline_gap_counterexample :
    c2Pipeline.length = 2 ∧
    (c2Pipeline.getD 0 dnote).midi_number = 60 ∧
    (c2Pipeline.getD 1 dnote).midi_number = 60 ∧
    0 < (c2Pipeline.getD 1 dnote).start_time -
      (c2Pipeline.getD 0 dnote).end_time ∧
    (c2Pipeline.getD 1 dnote).start_time -
      (c2Pipeline.getD 0 dnote).end_time ≤ 2/25 := by
  rw [c2Pipeline_eval]
  norm_num [Note.end_time]

/-! ### src/src/audio/midi_generator.py (C4) -/

/-- One entry of the `events` list built by `generate_midi`. -/
structure MidiEvent where
  time : ℚ
  isOn : Bool
  note : ℤ
  velocity : ℤ
deriving DecidableEq, Repr

/-- The events list of `generate_midi`: a `note_on` at each start and a
`note_off` (velocity 0) at each end, in note order. -/
def noteEvents (notes : List Note) : List MidiEvent :=
  notes.flatMap (fun n =>
    [⟨n.start_time, true, n.midi_number, n.velocity⟩,
     ⟨n.end_time, false, n.midi_number, 0⟩])

/-- The sort key `(time, type == "note_on")` of `events.sort`, as a Boolean
total preorder: lexicographic on time, then `False < True` (note_off before
note_on at equal time). -/
def evLe (a b : MidiEvent) : Bool :=
  decide (a.time < b.time ∨ (a.time = b.time ∧ (a.isOn → b.isOn)))

/-- The sorted events (Python `list.sort` is a stable sort on the key). -/
def sortedEvents (notes : List Note) : List MidiEvent :=
  (noteEvents notes).mergeSort evLe

/-- The delta-time loop of `generate_midi`:
`absolute_tick = int(time * ticks_per_second)` (truncation),
`delta = max(0, absolute_tick − last_tick)`. -/
def deltaLoop (tps : ℚ) : ℤ → List MidiEvent → List (ℤ × MidiEvent)
  | _, [] => []
  | last, e :: rest =>
    (max 0 (pyInt (e.time * tps) - last), e) ::
      deltaLoop tps (pyInt (e.time * tps)) rest

/-- The delta-timed message list of the `generate_midi` track (after the
tempo meta event), with `ticks_per_second = ticks_per_beat * (tempo / 60)`. -/
def generate_midi_track (notes : List Note) (tempo ticks_per_beat : ℚ) :
    List (ℤ × MidiEvent) :=
  deltaLoop (ticks_per_beat * (tempo / 60)) 0 (sortedEvents notes)

theorem evLe_trans (a b c : MidiEvent) (h1 : evLe a b) (h2 : evLe b c) :
    evLe a c = true := by
  simp only [evLe, decide_eq_true_eq] at h1 h2 ⊢
  rcases h1 with h1 | ⟨h1e, h1b⟩
  · rcases h2 with h2 | ⟨h2e, _⟩
    · exact Or.inl (lt_trans h1 h2)
    · exact Or.inl (h2e ▸ h1)
  · rcases h2 with h2 | ⟨h2e, h2b⟩
    · exact Or.inl (h1e ▸ h2)
    · exact Or.inr ⟨h1e.trans h2e, fun ha => h2b (h1b ha)⟩

theorem evLe_total (a b : MidiEvent) : evLe a b || evLe b a := by
  simp only [evLe, Bool.or_eq_true, decide_eq_true_eq]
  rcases lt_trichotomy a.time b.time with h | h | h
  · exact Or.inl (Or.inl h)
  · by_cases hb : b.isOn = true
    · exact Or.inl (Or.inr ⟨h, fun _ => hb⟩)
    · refine Or.inr (Or.inr ⟨h.symm, fun hb2 => absurd hb2 hb⟩)
  · exact Or.inr (Or.inl h)

theorem noteEvents_time_nonneg (notes : List Note)
    (hval : ∀ n ∈ notes, 0 ≤ n.start_time ∧ 0 < n.duration) :
    ∀ e ∈ noteEvents notes, 0 ≤ e.time := by
  intro e he
  unfold noteEvents at he
  rw [List.mem_flatMap] at he
  obtain ⟨n, hn, he2⟩ := he
  have hv := hval n hn
  rcases List.mem_cons.mp he2 with rfl | he3
  · exact hv.1
  · rcases List.mem_cons.mp he3 with rfl | he4
    · show (0 : ℚ) ≤ n.end_time
      unfold Note.end_time
      linarith [hv.1, hv.2]
    · cases he4

theorem deltaLoop_spec (tps : ℚ) (htps : 0 ≤ tps) :
    ∀ (evs : List MidiEvent) (last : ℤ),
      (∀ e ∈ evs, 0 ≤ e.time) →
      List.Pairwise (fun a b : MidiEvent => a.time ≤ b.time) evs →
      (∀ e ∈ evs.head?, last ≤ ⌊e.time * tps⌋) →
      deltaLoop tps last evs =
        List.zip
          (List.zipWith (fun a b => a - b)
            (evs.map (fun e => ⌊e.time * tps⌋))
            (last :: evs.map (fun e => ⌊e.time * tps⌋)))
          evs ∧
      ∀ p ∈ deltaLoop tps last evs, 0 ≤ p.1 := by
  intro evs
  induction evs with
  | nil =>
    intro last _ _ _
    exact ⟨rfl, by intro p hp; cases hp⟩
  | cons e rest ih =>
    intro last hnn hpw hhd
    have hlast : last ≤ ⌊e.time * tps⌋ := hhd e rfl
    have hpy : pyInt (e.time * tps) = ⌊e.time * tps⌋ := by
      unfold pyInt
      rw [if_neg (not_lt.mpr (mul_nonneg (hnn e (List.mem_cons_self _ _)) htps))]
    have hrest := ih ⌊e.time * tps⌋
      (fun x hx => hnn x (List.mem_cons_of_mem _ hx))
      (List.Pairwise.sublist (List.sublist_cons_self _ _) hpw)
      (by
        intro x hx
        rcases hr : rest with _ | ⟨r0, rtl⟩
        · rw [hr] at hx; cases hx
        · rw [hr] at hx
          simp only [List.head?_cons, Option.mem_def, Option.some.injEq] at hx
          rw [← hx]
          apply Int.floor_mono
          have hle : e.time ≤ r0.time :=
            (List.pairwise_cons.mp hpw).1 r0
              (by rw [hr]; exact List.mem_cons_self _ _)
          exact mul_le_mul_of_nonneg_right hle htps)
    constructor
    · show (max 0 (pyInt (e.time * tps) - last), e) :: _ = _
      rw [hpy]
      have hmax : max 0 (⌊e.time * tps⌋ - last) = ⌊e.time * tps⌋ - last :=
        max_eq_right (by omega)
      rw [hmax, hrest.1]
      rfl
    · intro p hp
      rcases List.mem_cons.mp hp with rfl | hp2
      · show (0 : ℤ) ≤ max 0 (pyInt (e.time * tps) - last)
        exact le_max_left _ _
      · rw [hpy] at hp2
        exact hrest.2 p hp2

/-- C4 (amended): with 480 ticks per quarter note at 120 BPM, the events are
sorted by `(time, note_off before note_on at equal time)`; each emitted
absolute tick is `int(seconds · 960)` — truncation, not rounding — and the
emitted delta times are exactly the non-negative differences of consecutive
absolute ticks from the previous emitted tick (starting at 0). -/
theorem generate_midi_spec (notes : List Note)
    (hval : ∀ n ∈ notes, 0 ≤ n.start_time ∧ 0 < n.duration) :
    List.Pairwise (fun a b : MidiEvent =>
      a.time < b.time ∨ (a.time = b.time ∧ (a.isOn → b.isOn)))
      (sortedEvents notes) ∧
    generate_midi_track notes 120 480 =
      List.zip
        (List.zipWith (fun a b => a - b)
          ((sortedEvents notes).map (fun e => ⌊e.time * 960⌋))
          (0 :: (sortedEvents notes).map (fun e => ⌊e.time * 960⌋)))
        (sortedEvents notes) ∧
    ∀ p ∈ generate_midi_track notes 120 480, 0 ≤ p.1 := by
  have hsorted : List.Pairwise (fun a b => evLe a b = true) (sortedEvents notes) :=
    List.sorted_mergeSort evLe_trans evLe_total (noteEvents notes)
  have hsortedP : List.Pairwise (fun a b : MidiEvent =>
      a.time < b.time ∨ (a.time = b.time ∧ (a.isOn → b.isOn)))
      (sortedEvents notes) := by
    refine hsorted.imp ?_
    intro a b hab
    exact of_decide_eq_true hab
  have hnn : ∀ e ∈ sortedEvents notes, 0 ≤ e.time := by
    intro e he
    have : e ∈ noteEvents notes := by
      have hp := List.mergeSort_perm (noteEvents notes) evLe
      exact hp.mem_iff.mp he
    exact noteEvents_time_nonneg notes hval e this
  have htime : List.Pairwise (fun a b : MidiEvent => a.time ≤ b.time)
      (sortedEvents notes) := by
    refine hsortedP.imp ?_
    intro a b hab
    rcases hab with h | ⟨h, _⟩
    · exact le_of_lt h
    · exact le_of_eq h
  have htps : (480 : ℚ) * (120 / 60) = 960 := by norm_num
  have hds := deltaLoop_spec ((480 : ℚ) * (120 / 60)) (by norm_num)
    (sortedEvents notes) 0 hnn htime
    (by
      intro e he
      have hmem : e ∈ sortedEvents notes := by
        rcases hs : sortedEvents notes with _ | ⟨s0, stl⟩
        · rw [hs] at he; cases he
        · rw [hs] at he
          simp only [List.head?_cons, Option.mem_def, Option.some.injEq] at he
          rw [← he]
          exact List.mem_cons_self _ _
      exact Int.le_floor.mpr (by
        push_cast
        exact mul_nonneg (hnn e hmem) (by norm_num)))
  rw [htps] at hds
  refine ⟨hsortedP, ?_, ?_⟩
  · show deltaLoop ((480 : ℚ) * (120 / 60)) 0 (sortedEvents notes) = _
    rw [htps]
    exact hds.1
  · intro p hp
    have hp2 : p ∈ deltaLoop ((480 : ℚ) * (120 / 60)) 0 (sortedEvents notes) := hp
    rw [htps] at hp2
    exact hds.2 p hp2

/-- Witness for C4 (amended) on a single note. -/
theorem generate_midi_spec_witness :
    List.Pairwise (fun a b : MidiEvent =>
      a.time < b.time ∨ (a.time = b.time ∧ (a.isOn → b.isOn)))
      (sortedEvents [⟨60, "C4", 0, 1, 440, 9/10, 119, none⟩]) ∧
    generate_midi_track [⟨60, "C4", 0, 1, 440, 9/10, 119, none⟩] 120 480 =
      List.zip
        (List.zipWith (fun a b => a - b)
          ((sortedEvents [⟨60, "C4", 0, 1, 440, 9/10, 119, none⟩]).map
            (fun e => ⌊e.time * 960⌋))
          (0 :: (sortedEvents [⟨60, "C4", 0, 1, 440, 9/10, 119, none⟩]).map
            (fun e => ⌊e.time * 960⌋)))
        (sortedEvents [⟨60, "C4", 0, 1, 440, 9/10, 119, none⟩]) ∧
    ∀ p ∈ generate_midi_track [⟨60, "C4", 0, 1, 440, 9/10, 119, none⟩] 120 480,
      0 ≤ p.1 :=
  generate_midi_spec [⟨60, "C4", 0, 1, 440, 9/10, 119, none⟩]
    (by
      intro n hn
      rw [List.mem_singleton.mp hn]
      norm_num)

/-- C4 counterexample: a note starting at 0.001 s gets its `note_on` at
absolute tick `int(0.001 · 960) = int(0.96) = 0`, while the claimed
`round(0.001 · 960) = 1`. -/
theorem midi_tick_round_counterexample :
    (generate_midi_track [⟨60, "C4", 1/1000, 1, 440, 9/10, 119, none⟩]
      120 480).map Prod.fst = [0, 960] ∧
    round ((1/1000 : ℚ) * 960) = 1 ∧ (0 : ℤ) ≠ 1 := by
  refine ⟨?_, ?_, by norm_num⟩
  · have hsort : sortedEvents [⟨60, "C4", 1/1000, 1, 440, 9/10, 119, none⟩] =
        noteEvents [⟨60, "C4", 1/1000, 1, 440, 9/10, 119, none⟩] := by
      apply List.mergeSort_of_sorted
      norm_num [noteEvents, Note.end_time, evLe, List.pairwise_cons]
    unfold generate_midi_track
    rw [hsort]
    norm_num [noteEvents, Note.end_time, deltaLoop, pyInt, max_def]
  · rw [round_eq]
    norm_num
